import Mathlib

/-!
Shallow embedding of the TC1031 log-analysis programs.

Four program variants are embedded, each in its own namespace:
* `Act52` — per-network connection summary over a fixed-capacity
  open-addressed (linear probing) hash table (`A01739942_Act5.2/main.cpp`);
* `Act43` — network/host aggregation with two open-addressed tables and
  max-with-ties queries (`A01739942_Act4.3/main.cpp`);
* `Act34` — top-5 IPs by access frequency (`A01739942_Act3_4/main.cpp`);
* `Act23` — doubly linked list merge sort and IP range search
  (`A01739942_Act2.3/main.cpp`).

C++ machine integers are modelled by `Nat`/`Int` with explicit `% 2 ^ w`
wherever overflow can occur; `NULL` pointers and `-1` sentinel results are
modelled by `Option`; the fixed global `TABLE_SIZE` constants are kept as
named constants while the table operations take the capacity as an explicit
first argument so that properties can be stated for the capacity `C` of the
specification.  Probe loops bounded by `probeCount < TABLE_SIZE` are modelled
by structural recursion on a fuel argument that starts at the capacity: the
C++ loop checks exactly `TABLE_SIZE` slots before declaring the table full
(the `index == originalIndex` break fires on the same iteration as the
`probeCount < TABLE_SIZE` bound, because the probe steps through residues
modulo `TABLE_SIZE`).
-/

/-- Splitting a character list at every dot; used to model both
`string::find` on dots (`extractNetwork`, `prefixFromIP`) and
`getline(ss, part, ch)` (`parseIPOctets`). -/
def splitOnDot : List Char → List (List Char)
  | [] => [[]]
  | c :: rest =>
    if c = Char.ofNat 46 then [] :: splitOnDot rest
    else
      match splitOnDot rest with
      | g :: gs => (c :: g) :: gs
      | [] => [[c]]

/-- The fields produced by repeated `getline(ss, part, ch)` on a dot
separator: like `splitOnDot`, except that an empty input yields no field and
a trailing separator does not produce a trailing empty field (the final
`getline` extracts nothing at end of stream and fails). -/
def getlineFields (cs : List Char) : List (List Char) :=
  match cs with
  | [] => []
  | _ =>
    if cs.getLast? = some (Char.ofNat 46) then (splitOnDot cs).dropLast
    else splitOnDot cs

/-- `struct entry` shared verbatim by `A01739942_Act2.3` and
`A01739942_Act3_4`: one parsed log line.  C++ `int` fields become `Int`,
`long long totalTime` becomes `Int`. -/
structure entry where
  month : Int
  day : Int
  hour : Int
  min : Int
  sec : Int
  totalTime : Int
  ip1 : Int
  ip2 : Int
  ip3 : Int
  ip4 : Int
  port : Int
  reason : String
  originLine : String
deriving DecidableEq

/-- `total_time` of Act2.3/Act3_4: the flat 31-days-per-month monotone date
key (documented single-year limitation of the source). -/
def total_time (month day hour minute second : Int) : Int :=
  ((((month * 31 + day) * 24 + hour) * 60 + minute) * 60 + second)

namespace Act52

/-- Capacity of the hash table in `A01739942_Act5.2` (`const int TABLE_SIZE
= 65521`). -/
def TABLE_SIZE : Nat := 65521

/-- `struct NetworkInfo` of Act5.2: one aggregate record of the table.  The
C++ `occupied` flag together with the slot contents is modelled by
`Option NetworkInfo` at each slot, and the `IPNode` linked list by
`List String`. -/
structure NetworkInfo where
  network : String
  accessCount : Nat
  uniqueIPs : List String
  connectionCount : Nat
deriving DecidableEq

/-- The global table `NetworkInfo hashTable[TABLE_SIZE]` plus the global
`int itemCount`.  Slots are a function from index to optional record. -/
structure HashTable where
  slots : Nat → Option NetworkInfo
  itemCount : Nat

/-- The initial state set up by section 4.1 of `main`: every position
unoccupied, `itemCount = 0`. -/
def initTable : HashTable := { slots := fun _ => none, itemCount := 0 }

/-- `hashFunction` of Act5.2: for each character, `hash = (hash * 31 + c) %
cap` then `hash = (hash + 37) % cap`; finally `hash % cap`.  The source uses
`unsigned long` arithmetic, which never overflows here because the running
value stays below `cap * 31 + 255`. -/
def hashFunction (cap : Nat) (key : String) : Nat :=
  (key.data.foldl (fun h c => ((h * 31 + c.toNat) % cap + 37) % cap) 0) % cap

/-- `extractNetwork` of Act5.2: substring up to the second dot (the first
two dot-separated fields rejoined); empty string when fewer than two dots
exist. -/
def extractNetwork (ip : String) : String :=
  match splitOnDot ip.data with
  | o1 :: o2 :: _ :: _ => String.mk o1 ++ "." ++ String.mk o2
  | _ => ""

/-- `ipExists` of Act5.2: linear scan of the unique-IP list. -/
def ipExists : List String → String → Bool
  | [], _ => false
  | x :: rest, ip => if x = ip then true else ipExists rest ip

/-- `addIP` of Act5.2: prepend to the linked list of unique IPs. -/
def addIP (l : List String) (ip : String) : List String := ip :: l

/-- The record built by the empty-cell branch of `insertOrUpdate`:
`accessCount = 1`, then `addIP` into the empty list and
`connectionCount = 1`. -/
def newNetworkInfo (network ip : String) : NetworkInfo :=
  { network := network, accessCount := 1, uniqueIPs := addIP [] ip,
    connectionCount := 1 }

/-- The update applied by the matching-cell branch of `insertOrUpdate`:
`accessCount++`; if the IP is not yet in the list, `addIP` it and
`connectionCount++`. -/
def updateNetworkInfo (r : NetworkInfo) (ip : String) : NetworkInfo :=
  if ipExists r.uniqueIPs ip then
    { r with accessCount := r.accessCount + 1 }
  else
    { r with accessCount := r.accessCount + 1,
             uniqueIPs := addIP r.uniqueIPs ip,
             connectionCount := r.connectionCount + 1 }

/-- Writing a record into slot `j`; `newItem` tells whether `itemCount++`
runs (it does only on the empty-cell branch). -/
def setSlot (t : HashTable) (j : Nat) (r : NetworkInfo) (newItem : Bool) :
    HashTable :=
  { slots := fun i => if i = j then some r else t.slots i,
    itemCount := if newItem then t.itemCount + 1 else t.itemCount }

/-- The linear-probing loop of `insertOrUpdate`, with the remaining probe
budget as fuel; fuel `0` is the table-full exit (`return false`, modelled by
`none`). -/
def probeInsert (cap : Nat) (t : HashTable) (network ip : String) :
    Nat → Nat → Option HashTable
  | _, 0 => none
  | idx, fuel + 1 =>
    match t.slots idx with
    | none => some (setSlot t idx (newNetworkInfo network ip) true)
    | some r =>
      if r.network = network then
        some (setSlot t idx (updateNetworkInfo r ip) false)
      else
        probeInsert cap t network ip ((idx + 1) % cap) fuel

/-- `insertOrUpdate` of Act5.2: guard `itemCount >= TABLE_SIZE`, then at
most `cap` probes starting from the hash index.  `none` models
`return false` (table full). -/
def insertOrUpdate (cap : Nat) (t : HashTable) (network ip : String) :
    Option HashTable :=
  if cap ≤ t.itemCount then none
  else probeInsert cap t network ip (hashFunction cap network) cap

/-- The linear-probing loop of `searchNetwork`; `none` models the `-1`
not-found result (returned at the first empty cell, or after `cap`
probes). -/
def probeSearch (cap : Nat) (t : HashTable) (network : String) :
    Nat → Nat → Option Nat
  | _, 0 => none
  | idx, fuel + 1 =>
    match t.slots idx with
    | none => none
    | some r =>
      if r.network = network then some idx
      else probeSearch cap t network ((idx + 1) % cap) fuel

/-- `searchNetwork` of Act5.2. -/
def searchNetwork (cap : Nat) (t : HashTable) (network : String) :
    Option Nat :=
  probeSearch cap t network (hashFunction cap network) cap

/-- A sequence of ingestions: each pair is the (network key, full IP) that
one log record contributes; the first failing `insertOrUpdate` makes the
whole run fail (`none`), as in `main` section 4.3. -/
def ingest (cap : Nat) (t : HashTable) :
    List (String × String) → Option HashTable
  | [] => some t
  | p :: rest =>
    match insertOrUpdate cap t p.1 p.2 with
    | none => none
    | some t2 => ingest cap t2 rest

/-- The digit accumulation of `parseIPOctets`:
`octets[c] = octets[c] * 10 + (part[i] - '0')` in C++ `int` arithmetic
(which can go negative on non-digit characters), hence `Int`. -/
def parseOctetInt (part : List Char) : Int :=
  part.foldl (fun a c => a * 10 + ((c.toNat : Int) - 48)) 0

/-- `parseIPOctets` of Act5.2: at most four `getline`-separated fields, each
accumulated into an `int`; returns the octet array together with `count`. -/
def parseIPOctets (ip : String) : List Int × Nat :=
  let parts := (getlineFields ip.data).take 4
  (parts.map parseOctetInt, parts.length)

/-- The comparison loop of `compareIPs`: walk the two octet arrays in step
(`i < 4 && i < count1 && i < count2` holds exactly while both lists are
nonempty, since both have length `count ≤ 4`); the first differing octet
decides, otherwise `count1 < count2`. -/
def cmpOctetLists : List Int → List Int → Bool
  | x :: xs, y :: ys => if x ≠ y then decide (x < y) else cmpOctetLists xs ys
  | [], [] => false
  | [], _ :: _ => true
  | _ :: _, [] => false

/-- `compareIPs` of Act5.2: numeric (octet-wise) strict comparison of two
dotted addresses given as strings. -/
def compareIPs (ip1 ip2 : String) : Bool :=
  cmpOctetLists (parseIPOctets ip1).1 (parseIPOctets ip2).1

/-- The inner walk of `sortIPList`: `search` advances while
`compareIPs(search->next->ip, current->ip)`; `current` is linked in after
the walked prefix. -/
def insertRest (cur : String) : List String → List String
  | [] => [cur]
  | y :: ys => if compareIPs y cur then y :: insertRest cur ys else cur :: y :: ys

/-- One insertion step of `sortIPList`: prepend when
`sorted == NULL || compareIPs(current, sorted)`, otherwise keep the head and
run the inner walk on the tail. -/
def insertIPSorted (cur : String) : List String → List String
  | [] => [cur]
  | h :: t => if compareIPs cur h then cur :: h :: t else h :: insertRest cur t

/-- `sortIPList` of Act5.2: insertion sort of the unique-IP list, taking the
original nodes head to tail. -/
def sortIPList (l : List String) : List String :=
  l.foldl (fun sorted cur => insertIPSorted cur sorted) []

/-- The ingestion loop of `main` (section 4.3) after tokenisation: each
record contributes its non-empty network key and IP; a failing
`insertOrUpdate` prints the table-full diagnostic and returns exit status 1
immediately (remaining lines are never processed). -/
def ingestLoop (cap : Nat) (t : HashTable) :
    List (String × String) → Except (String × Nat) HashTable
  | [] => .ok t
  | p :: rest =>
    if p.1 = "" then ingestLoop cap t rest
    else
      match insertOrUpdate cap t p.1 p.2 with
      | some t2 => ingestLoop cap t2 rest
      | none => .error ("Error: Tabla llena, imposible meter más datos", 1)

/-- The body of one query of `main` (section 4.4): search; on miss echo the
query and the fixed literal; on hit sort the slot's IP list in place (the
table is mutated) and print key, counters and the sorted list. -/
def queryStep (cap : Nat) (t : HashTable) (q : String) :
    List String × HashTable :=
  match searchNetwork cap t q with
  | none => ([q, "Red no encontrada"], t)
  | some idx =>
    match t.slots idx with
    | none => ([], t)
    | some r =>
      let sorted := sortIPList r.uniqueIPs
      ([r.network, toString r.accessCount, toString r.connectionCount] ++
         sorted,
       setSlot t idx { r with uniqueIPs := sorted } false)

/-- The query loop of `main` (section 4.4): all `n` queries are processed in
order, with one blank line between consecutive answers (not after the
last). -/
def queryLoop (cap : Nat) (t : HashTable) : List String → List String
  | [] => []
  | q :: rest =>
    (queryStep cap t q).1 ++ (if rest = [] then [] else [""]) ++
      queryLoop cap (queryStep cap t q).2 rest

/-- The whole query phase of `main`: its output lines and the exit status,
which is `0` (the final `return 0`) whatever the individual query results
were. -/
def queryPhase (cap : Nat) (t : HashTable) (qs : List String) :
    List String × Nat :=
  (queryLoop cap t qs, 0)

end Act52

namespace Act43

/-- Capacity of both tables in `A01739942_Act4.3` (`const int TABLE_SIZE =
1000003`). -/
def TABLE_SIZE : Nat := 1000003

/-- `struct Entry` of Act4.3: one log entry attached to a host. -/
structure Entry where
  date : String
  time : String
  port : String
  message : String
deriving DecidableEq

/-- `struct Host` of Act4.3.  The `used` flag is modelled by `Option` at the
slot; the dynamic array `entries` (with its doubling `entryCap`) becomes a
`List` plus the two counters kept by the source. -/
structure Host where
  ip : String
  entries : List Entry
  entryCount : Nat
  entryCap : Nat
deriving DecidableEq

/-- `struct Network` of Act4.3.  The C++ field `prefix` is named `pfx` here
because `prefix` is reserved in Lean. -/
structure Network where
  pfx : String
  uniqueHostCount : Nat
deriving DecidableEq

/-- `hashString` of Act4.3: multiplier-131 accumulation in `unsigned int`,
i.e. modulo `2 ^ 32`. -/
def hashString (s : String) : Nat :=
  s.data.foldl (fun h c => (h * 131 + c.toNat) % 2 ^ 32) 0

/-- `prefixFromIP` of Act4.3: the first two dot-separated fields; unlike
Act5.2's `extractNetwork`, it returns the input unchanged when fewer than
two dots exist. -/
def prefixFromIP (ip : String) : String :=
  match splitOnDot ip.data with
  | o1 :: o2 :: _ :: _ => String.mk o1 ++ "." ++ String.mk o2
  | _ => ip

/-- The probe loop of `getNetworkIndex` (`pasos < TABLE_SIZE`), with the
remaining budget as fuel.  Fuel `0` is the loop falling through: the source
prints the table-full diagnostic to `cerr` and calls `exit(1)`, modelled as
an `Except.error` carrying the message and the exit status. -/
def probeNetwork (cap : Nat) (nt : Nat → Option Network) (p : String) :
    Nat → Nat → Except (String × Nat) (Nat × (Nat → Option Network))
  | _, 0 => .error ("Error: tabla de redes llena, aumenta TABLE_SIZE", 1)
  | h, fuel + 1 =>
    match nt h with
    | none =>
      .ok (h, fun i => if i = h then some { pfx := p, uniqueHostCount := 0 }
                       else nt i)
    | some n =>
      if n.pfx = p then .ok (h, nt)
      else probeNetwork cap nt p ((h + 1) % cap) fuel

/-- `getNetworkIndex` of Act4.3: insert-or-find of a network prefix, linear
probing from `hashString(prefix) % TABLE_SIZE`. -/
def getNetworkIndex (cap : Nat) (nt : Nat → Option Network) (p : String) :
    Except (String × Nat) (Nat × (Nat → Option Network)) :=
  probeNetwork cap nt p (hashString p % cap) cap

/-- The first scan of section 4.4: running maximum of `uniqueHostCount` over
the used slots, starting from 0. -/
def maxHosts (cap : Nat) (nt : Nat → Option Network) : Nat :=
  (List.range cap).foldl
    (fun m i =>
      match nt i with
      | some n => if m < n.uniqueHostCount then n.uniqueHostCount else m
      | none => m) 0

/-- The second scan of section 4.4: print every used slot whose
`uniqueHostCount` equals the maximum. -/
def maxNetworksReport (cap : Nat) (nt : Nat → Option Network) :
    List String :=
  (List.range cap).filterMap
    (fun i =>
      match nt i with
      | some n => if n.uniqueHostCount = maxHosts cap nt then some n.pfx
                  else none
      | none => none)

/-- The first scan of section 4.5: running maximum of `entryCount` over the
used host slots. -/
def maxEntries (cap : Nat) (ht : Nat → Option Host) : Nat :=
  (List.range cap).foldl
    (fun m i =>
      match ht i with
      | some h => if m < h.entryCount then h.entryCount else m
      | none => m) 0

/-- The second scan of section 4.5: print every used host slot whose
`entryCount` equals the maximum. -/
def maxHostsReport (cap : Nat) (ht : Nat → Option Host) : List String :=
  (List.range cap).filterMap
    (fun i =>
      match ht i with
      | some h => if h.entryCount = maxEntries cap ht then some h.ip
                  else none
      | none => none)

end Act43

namespace Act34

/-- `struct IPKey` of Act3_4: a full IP (no port) used as the grouping
key. -/
structure IPKey where
  ip1 : Int
  ip2 : Int
  ip3 : Int
  ip4 : Int
deriving DecidableEq

/-- `IPKey::operator<` of Act3_4: octet-by-octet numeric comparison. -/
def IPKey.lt (a b : IPKey) : Bool :=
  if a.ip1 ≠ b.ip1 then decide (a.ip1 < b.ip1)
  else if a.ip2 ≠ b.ip2 then decide (a.ip2 < b.ip2)
  else if a.ip3 ≠ b.ip3 then decide (a.ip3 < b.ip3)
  else decide (a.ip4 < b.ip4)

/-- `struct IPData` of Act3_4: one per-IP group. -/
structure IPData where
  key : IPKey
  entries : List entry
  count : Nat
deriving DecidableEq

/-- The comparator lambda of section 5.3: more accesses first; on a tie the
numerically larger IP first (octets compared left to right, `>`). -/
def accessOrder (a b : IPData) : Bool :=
  if a.count ≠ b.count then decide (b.count < a.count)
  else if a.key.ip1 ≠ b.key.ip1 then decide (b.key.ip1 < a.key.ip1)
  else if a.key.ip2 ≠ b.key.ip2 then decide (b.key.ip2 < a.key.ip2)
  else if a.key.ip3 ≠ b.key.ip3 then decide (b.key.ip3 < a.key.ip3)
  else decide (b.key.ip4 < a.key.ip4)

/-- The `sort(ipDataList.begin(), ipDataList.end(), cmp)` call of section
5.3: a comparison sort under the strict comparator `accessOrder`, i.e. a
permutation in which no earlier element compares after a later one.  (The
comparator is a strict total order on the map's distinct keys, so every
conforming sort produces the same sequence.) -/
def sortByAccess (gs : List IPData) : List IPData :=
  gs.mergeSort (fun a b => !(accessOrder b a))

/-- `limit = min(5, ipDataList.size())` of section 5.4. -/
def topLimit (gs : List IPData) : Nat := min 5 gs.length

/-- The groups whose entries section 5.4 prints: the first `limit` groups of
the sorted sequence. -/
def topGroups (gs : List IPData) : List IPData :=
  (sortByAccess gs).take (topLimit gs)

/-- The lines printed by section 5.4: every original line of each reported
group, groups in sorted order. -/
def topReport (gs : List IPData) : List String :=
  ((topGroups gs).map (fun d => d.entries.map (fun e => e.originLine))).flatten

end Act34

namespace Act23

/-- `lessEntry` of Act2.3: IP octets, then `totalTime`, then `reason`
(lexicographic) — the strict composite-key order of the merge sort. -/
def lessEntry (a b : entry) : Bool :=
  if a.ip1 ≠ b.ip1 then decide (a.ip1 < b.ip1)
  else if a.ip2 ≠ b.ip2 then decide (a.ip2 < b.ip2)
  else if a.ip3 ≠ b.ip3 then decide (a.ip3 < b.ip3)
  else if a.ip4 ≠ b.ip4 then decide (a.ip4 < b.ip4)
  else if a.totalTime ≠ b.totalTime then decide (a.totalTime < b.totalTime)
  else decide (a.reason < b.reason)

/-- The two-pointer loop of `mergeSortedLists`, with the total number of
remaining nodes as (structural) fuel; the fuel never runs out on the calls
the program makes, since each step consumes one node.  `!first` and
`!second` return the other list, as in the source. -/
def mergeLists : Nat → List entry → List entry → List entry
  | _, [], l2 => l2
  | _, l1, [] => l1
  | 0, l1, l2 => l1 ++ l2
  | fuel + 1, a :: l1, b :: l2 =>
    if lessEntry a b then a :: mergeLists fuel l1 (b :: l2)
    else b :: mergeLists fuel (a :: l1) l2

/-- `mergeSortedLists` of Act2.3: fuse two sorted sublists; note that on
`lessEntry(first, second) = false` — including exact key ties — the node of
the SECOND list is taken first. -/
def mergeSortedLists (l1 l2 : List entry) : List entry :=
  mergeLists (l1.length + l2.length) l1 l2

/-- `mergeSortList` of Act2.3 with the list length as structural fuel (the
recursion depth never exceeds the length).  The slow/fast midpoint split
puts `ceil(n / 2)` nodes in the first half, i.e. `take ((n + 1) / 2)` /
`drop ((n + 1) / 2)`. -/
def mergeSortRec : Nat → List entry → List entry
  | 0, l => l
  | fuel + 1, l =>
    if l.length ≤ 1 then l
    else
      mergeSortedLists (mergeSortRec fuel (l.take ((l.length + 1) / 2)))
        (mergeSortRec fuel (l.drop ((l.length + 1) / 2)))

/-- The `mergeSortList(head)` entry point. -/
def mergeSortList (l : List entry) : List entry := mergeSortRec l.length l

/-- C++ conversion `(unsigned long long)x` of an `int`: reduction modulo
`2 ^ 64`. -/
def intToU64 (i : Int) : Nat := (i % (2 ^ 64 : Int)).toNat

/-- The 64-bit composite `(ip1 << 24) | (ip2 << 16) | (ip3 << 8) | ip4`
built by `lowerBoundIP` / `upperBoundIP` / `main`; each shift result wraps
modulo `2 ^ 64`. -/
def ipNumKey (a b c d : Int) : Nat :=
  ((intToU64 a <<< 24) % 2 ^ 64) ||| ((intToU64 b <<< 16) % 2 ^ 64) |||
    ((intToU64 c <<< 8) % 2 ^ 64) ||| intToU64 d

/-- The numeric key of a stored node. -/
def ipVal (e : entry) : Nat := ipNumKey e.ip1 e.ip2 e.ip3 e.ip4

/-- `lowerBoundIP` of Act2.3 as a list index: the first node (linear scan)
whose numeric IP is `≥ key`; `none` models the null pointer. -/
def lowerBoundIP : List entry → Nat → Option Nat
  | [], _ => none
  | e :: rest, key =>
    if key ≤ ipVal e then some 0
    else (lowerBoundIP rest key).map (fun i => i + 1)

/-- `upperBoundIP` of Act2.3 as a list index: the first node whose numeric
IP is `> key`. -/
def upperBoundIP : List entry → Nat → Option Nat
  | [], _ => none
  | e :: rest, key =>
    if key < ipVal e then some 0
    else (upperBoundIP rest key).map (fun i => i + 1)

/-- The output loop of section 3.6: print `cur`, stop after printing
`startNode`, otherwise step to `prev` (index `cur - 1`) and stop when `prev`
is null (i.e. after printing index 0). -/
def printBack (L : List entry) (startIdx : Nat) : Nat → List String
  | 0 => match L[0]? with | some e => [e.originLine] | none => []
  | cur + 1 =>
    (match L[cur + 1]? with | some e => [e.originLine] | none => []) ++
      (if cur + 1 = startIdx then [] else printBack L startIdx cur)

/-- Sections 3.4–3.6 of `main` after the two numeric keys are built: swap an
inverted range, locate `startNode` (lower bound) and `endBound` (upper bound
from `startNode`), set `endNode` to `endBound->prev` (tail when `endBound`
is null), print nothing if either end is null, else print from `endNode`
backwards. -/
def rangeQuery (L : List entry) (k1 k2 : Nat) : List String :=
  let startKey := if k2 < k1 then k2 else k1
  let endKey := if k2 < k1 then k1 else k2
  match lowerBoundIP L startKey with
  | none => []
  | some s =>
    let endBound := (upperBoundIP (L.drop s) endKey).map (fun d => s + d)
    let endNodeIdx : Option Nat :=
      match endBound with
      | none => if L.length = 0 then none else some (L.length - 1)
      | some e => if e = 0 then none else some (e - 1)
    match endNodeIdx with
    | none => []
    | some eN => printBack L s eN

end Act23

/-! ## Probe-exhaustion lemmas (claims C4, C10) -/

namespace Act43

theorem probeNetwork_exhausts {cap : Nat} (hc : 0 < cap)
    {nt : Nat → Option Network} {p : String}
    (hall : ∀ j, j < cap → ∃ n, nt j = some n ∧ n.pfx ≠ p) :
    ∀ (fuel idx : Nat), idx < cap →
      probeNetwork cap nt p idx fuel =
        .error ("Error: tabla de redes llena, aumenta TABLE_SIZE", 1) := by
  intro fuel
  induction fuel with
  | zero => intro idx _; rfl
  | succ f ih =>
    intro idx hidx
    obtain ⟨n, hn, hne⟩ := hall idx hidx
    simp only [probeNetwork, hn, if_neg hne]
    exact ih ((idx + 1) % cap) (Nat.mod_lt _ hc)

end Act43

namespace Act52

theorem probeInsert_exhausts {cap : Nat} (hc : 0 < cap) {t : HashTable}
    {K ip : String}
    (hall : ∀ j, j < cap → ∃ r, t.slots j = some r ∧ r.network ≠ K) :
    ∀ (fuel idx : Nat), idx < cap → probeInsert cap t K ip idx fuel = none := by
  intro fuel
  induction fuel with
  | zero => intro idx _; rfl
  | succ f ih =>
    intro idx hidx
    obtain ⟨r, hr, hne⟩ := hall idx hidx
    simp only [probeInsert, hr, if_neg hne]
    exact ih ((idx + 1) % cap) (Nat.mod_lt _ hc)

theorem hashFunction_lt {cap : Nat} (hc : 0 < cap) (key : String) :
    hashFunction cap key < cap :=
  Nat.mod_lt _ hc

end Act52

/-- C4: if the probe loop of the insert-or-find operation walks all `C`
slots of a table of capacity `C` without finding an empty slot or a matching
key, the run is aborted: Act4.3's `getNetworkIndex` reports the table-full
message on the diagnostic stream and exits with status 1, and Act5.2's
ingestion loop reports its table-full message and returns exit status 1
without processing any further record; neither path retries. -/
theorem capacity_exhaustion_is_fatal (cap : Nat) :
    (∀ (nt : Nat → Option Act43.Network) (p : String), 0 < cap →
      (∀ j, j < cap → ∃ n, nt j = some n ∧ n.pfx ≠ p) →
      Act43.getNetworkIndex cap nt p =
        .error ("Error: tabla de redes llena, aumenta TABLE_SIZE", 1)) ∧
    (∀ (t : Act52.HashTable) (K ip : String)
       (post : List (String × String)), 0 < cap → t.itemCount < cap →
      (∀ j, j < cap → ∃ r, t.slots j = some r ∧ r.network ≠ K) → K ≠ "" →
      Act52.ingestLoop cap t ((K, ip) :: post) =
        .error ("Error: Tabla llena, imposible meter más datos", 1)) := by
  constructor
  · intro nt p hc hall
    exact Act43.probeNetwork_exhausts hc hall cap (Act43.hashString p % cap)
      (Nat.mod_lt _ hc)
  · intro t K ip post hc hcount hall hK
    have hins : Act52.insertOrUpdate cap t K ip = none := by
      unfold Act52.insertOrUpdate
      rw [if_neg (by omega)]
      exact Act52.probeInsert_exhausts hc hall cap (Act52.hashFunction cap K)
        (Act52.hashFunction_lt hc K)
    simp only [Act52.ingestLoop, if_neg hK, hins]

/-- A two-slot network table whose slots are all occupied by a foreign
prefix, and a two-slot Act5.2 table in the same situation. -/
def fullNetTable : Nat → Option Act43.Network :=
  fun _ => some { pfx := "9.9", uniqueHostCount := 1 }

def fullHashTable : Act52.HashTable :=
  { slots := fun _ => some { network := "9.9", accessCount := 1,
                             uniqueIPs := ["9.9.1.1"], connectionCount := 1 },
    itemCount := 0 }

theorem capacity_exhaustion_is_fatal_witness :
    Act43.getNetworkIndex 2 fullNetTable "1.2" =
      .error ("Error: tabla de redes llena, aumenta TABLE_SIZE", 1) ∧
    Act52.ingestLoop 2 fullHashTable [("1.2", "1.2.3.4")] =
      .error ("Error: Tabla llena, imposible meter más datos", 1) := by
  have h := capacity_exhaustion_is_fatal 2
  exact ⟨h.1 fullNetTable "1.2" (by decide)
      (fun j _ => ⟨_, rfl, by decide⟩),
    h.2 fullHashTable "1.2" "1.2.3.4" [] (by decide) (by decide)
      (fun j _ => ⟨_, rfl, by decide⟩) (by decide)⟩

/-- C10: once `itemCount >= TABLE_SIZE`, Act5.2's `insertOrUpdate` rejects
every record — whatever the slots hold, in particular also when the record's
network key is already present and would only need its counters updated —
and the ingestion loop then aborts the whole run with the table-full
diagnostic and exit status 1, for any remaining input. -/
theorem act52_itemCount_guard_rejects_all (cap : Nat) (t : Act52.HashTable)
    (K ip : String) (hfull : cap ≤ t.itemCount) :
    Act52.insertOrUpdate cap t K ip = none ∧
    (∀ post, K ≠ "" →
      Act52.ingestLoop cap t ((K, ip) :: post) =
        .error ("Error: Tabla llena, imposible meter más datos", 1)) := by
  have hins : Act52.insertOrUpdate cap t K ip = none := by
    unfold Act52.insertOrUpdate
    rw [if_pos hfull]
  refine ⟨hins, fun post hK => ?_⟩
  simp only [Act52.ingestLoop, if_neg hK, hins]

/-- A table that already holds `TABLE_SIZE` items and in which the queried
key "10.0" is present (its slot would only need updating). -/
def saturatedTable : Act52.HashTable :=
  { slots := fun _ => some { network := "10.0", accessCount := 3,
                             uniqueIPs := ["10.0.0.5"], connectionCount := 1 },
    itemCount := Act52.TABLE_SIZE }

theorem act52_itemCount_guard_rejects_all_witness :
    Act52.insertOrUpdate Act52.TABLE_SIZE saturatedTable "10.0" "10.0.0.9" =
      none ∧
    Act52.ingestLoop Act52.TABLE_SIZE saturatedTable
        [("10.0", "10.0.0.9"), ("20.1", "20.1.3.4")] =
      .error ("Error: Tabla llena, imposible meter más datos", 1) := by
  have h := act52_itemCount_guard_rejects_all Act52.TABLE_SIZE saturatedTable
    "10.0" "10.0.0.9" (le_refl _)
  exact ⟨h.1, h.2 [("20.1", "20.1.3.4")] (by decide)⟩

/-! ## Query-miss behaviour (claim C9) -/

/-- C9: a query whose network prefix is absent from the index is not an
error: `queryStep` answers with the echoed query string paired with the
fixed literal "Red no encontrada" and leaves the table unchanged, the query
loop then continues with the remaining queries, and the query phase returns
exit status 0 for every query list. -/
theorem act52_query_miss_not_error (cap : Nat) (t : Act52.HashTable)
    (q : String) (rest qs : List String)
    (hmiss : Act52.searchNetwork cap t q = none) :
    Act52.queryStep cap t q = ([q, "Red no encontrada"], t) ∧
    Act52.queryLoop cap t (q :: rest) =
      [q, "Red no encontrada"] ++ (if rest = [] then [] else [""]) ++
        Act52.queryLoop cap t rest ∧
    (Act52.queryPhase cap t qs).2 = 0 := by
  have hstep : Act52.queryStep cap t q = ([q, "Red no encontrada"], t) := by
    unfold Act52.queryStep
    rw [hmiss]
  refine ⟨hstep, ?_, rfl⟩
  simp only [Act52.queryLoop, hstep]

theorem act52_query_miss_not_error_witness :
    Act52.queryStep 7 Act52.initTable "99.9" =
      (["99.9", "Red no encontrada"], Act52.initTable) ∧
    Act52.queryLoop 7 Act52.initTable ["99.9", "77.7"] =
      ["99.9", "Red no encontrada"] ++ [""] ++
        Act52.queryLoop 7 Act52.initTable ["77.7"] ∧
    (Act52.queryPhase 7 Act52.initTable ["99.9", "77.7"]).2 = 0 := by
  have h := act52_query_miss_not_error 7 Act52.initTable "99.9" ["77.7"]
    ["99.9", "77.7"] (by decide)
  exact ⟨h.1, h.2.1, h.2.2⟩

/-! ## Max-with-ties reporting (claim C3) -/

theorem foldl_le_init (f : Nat → Nat → Nat) (hmono : ∀ m i, m ≤ f m i) :
    ∀ (l : List Nat) (m0 : Nat), m0 ≤ l.foldl f m0 := by
  intro l
  induction l with
  | nil => intro m0; simp
  | cons j rest ih =>
    intro m0
    exact le_trans (hmono m0 j) (ih (f m0 j))

theorem foldl_le_of_mem (f : Nat → Nat → Nat) (hmono : ∀ m i, m ≤ f m i)
    (v i : Nat) (hv : ∀ m, v ≤ f m i) :
    ∀ (l : List Nat) (m0 : Nat), i ∈ l → v ≤ l.foldl f m0 := by
  intro l
  induction l with
  | nil => intro m0 hmem; exact absurd hmem (List.not_mem_nil i)
  | cons j rest ih =>
    intro m0 hmem
    rcases List.mem_cons.mp hmem with heq | htail
    · subst heq
      exact le_trans (hv m0) (foldl_le_init f hmono rest _)
    · exact ih _ htail

/-- C3: the two-scan max queries of Act4.3 report all tied winners: for
every occupied slot, its selector value (`uniqueHostCount` for networks,
`entryCount` for hosts) is bounded by the scanned maximum, and whenever it
equals that maximum the slot's key appears in the report — so all tied
maximal slots are reported, never just one. -/
theorem act43_max_reports_all_ties (cap : Nat)
    (nt : Nat → Option Act43.Network) (ht : Nat → Option Act43.Host) :
    (∀ i, i < cap → ∀ n, nt i = some n →
      n.uniqueHostCount ≤ Act43.maxHosts cap nt ∧
      (n.uniqueHostCount = Act43.maxHosts cap nt →
        n.pfx ∈ Act43.maxNetworksReport cap nt)) ∧
    (∀ i, i < cap → ∀ h, ht i = some h →
      h.entryCount ≤ Act43.maxEntries cap ht ∧
      (h.entryCount = Act43.maxEntries cap ht →
        h.ip ∈ Act43.maxHostsReport cap ht)) := by
  constructor
  · intro i hi n hn
    refine ⟨?_, fun hmax => ?_⟩
    · unfold Act43.maxHosts
      refine foldl_le_of_mem _ ?_ _ i ?_ (List.range cap) 0
        (List.mem_range.mpr hi)
      · intro m j
        cases nt j with
        | none => exact le_refl _
        | some x => dsimp; split <;> omega
      · intro m
        rw [hn]
        dsimp
        split <;> omega
    · unfold Act43.maxNetworksReport
      rw [List.mem_filterMap]
      exact ⟨i, List.mem_range.mpr hi, by rw [hn]; simp [hmax]⟩
  · intro i hi h hh
    refine ⟨?_, fun hmax => ?_⟩
    · unfold Act43.maxEntries
      refine foldl_le_of_mem _ ?_ _ i ?_ (List.range cap) 0
        (List.mem_range.mpr hi)
      · intro m j
        cases ht j with
        | none => exact le_refl _
        | some x => dsimp; split <;> omega
      · intro m
        rw [hh]
        dsimp
        split <;> omega
    · unfold Act43.maxHostsReport
      rw [List.mem_filterMap]
      exact ⟨i, List.mem_range.mpr hi, by rw [hh]; simp [hmax]⟩

/-- Three networks tied at the maximum unique-host count, three hosts with
one tied pair at the maximum entry count. -/
def tiedNetTable : Nat → Option Act43.Network :=
  fun i =>
    match i with
    | 0 => some { pfx := "10.1", uniqueHostCount := 2 }
    | 1 => some { pfx := "10.2", uniqueHostCount := 2 }
    | 2 => some { pfx := "10.3", uniqueHostCount := 2 }
    | _ => none

def tiedHostTable : Nat → Option Act43.Host :=
  fun i =>
    match i with
    | 0 => some { ip := "10.1.0.1", entries := [], entryCount := 5,
                  entryCap := 10 }
    | 1 => some { ip := "10.2.0.1", entries := [], entryCount := 3,
                  entryCap := 10 }
    | 2 => some { ip := "10.3.0.1", entries := [], entryCount := 5,
                  entryCap := 10 }
    | _ => none

theorem act43_max_reports_all_ties_witness :
    "10.1" ∈ Act43.maxNetworksReport 3 tiedNetTable ∧
    "10.2" ∈ Act43.maxNetworksReport 3 tiedNetTable ∧
    "10.3" ∈ Act43.maxNetworksReport 3 tiedNetTable ∧
    "10.1.0.1" ∈ Act43.maxHostsReport 3 tiedHostTable ∧
    "10.3.0.1" ∈ Act43.maxHostsReport 3 tiedHostTable ∧
    3 ≤ Act43.maxEntries 3 tiedHostTable := by
  have h := act43_max_reports_all_ties 3 tiedNetTable tiedHostTable
  refine ⟨(h.1 0 (by decide) _ rfl).2 (by decide),
    (h.1 1 (by decide) _ rfl).2 (by decide),
    (h.1 2 (by decide) _ rfl).2 (by decide),
    (h.2 0 (by decide) _ rfl).2 (by decide),
    (h.2 2 (by decide) _ rfl).2 (by decide),
    (h.2 1 (by decide) _ rfl).1⟩

/-! ## Numeric IP comparison (claim C6) -/

theorem intToU64_coe (n : Nat) (h : n < 2 ^ 64) :
    Act23.intToU64 (n : Int) = n := by
  unfold Act23.intToU64
  rw [Int.emod_eq_of_lt (by positivity) (by exact_mod_cast h)]
  exact Int.toNat_natCast n

theorem ipNumKey_ofNat (A B C D : Nat) (hA : A < 256) (hB : B < 256)
    (hC : C < 256) (hD : D < 256) :
    Act23.ipNumKey (A : Int) (B : Int) (C : Int) (D : Int) =
      ((A * 256 + B) * 256 + C) * 256 + D := by
  unfold Act23.ipNumKey
  rw [intToU64_coe A (by omega), intToU64_coe B (by omega),
    intToU64_coe C (by omega), intToU64_coe D (by omega)]
  rw [Nat.shiftLeft_eq, Nat.shiftLeft_eq, Nat.shiftLeft_eq]
  rw [Nat.mod_eq_of_lt (by norm_num; omega), Nat.mod_eq_of_lt (by norm_num; omega),
    Nat.mod_eq_of_lt (by norm_num; omega)]
  have h1 : A * 2 ^ 24 ||| B * 2 ^ 16 = A * 2 ^ 24 + B * 2 ^ 16 := by
    rw [Nat.mul_comm A]
    rw [← Nat.mul_add_lt_is_or (show B * 2 ^ 16 < 2 ^ 24 by norm_num; omega) A]
  have h2 : (A * 2 ^ 24 + B * 2 ^ 16) ||| C * 2 ^ 8 =
      A * 2 ^ 24 + B * 2 ^ 16 + C * 2 ^ 8 := by
    have hrw : A * 2 ^ 24 + B * 2 ^ 16 = 2 ^ 16 * (2 ^ 8 * A + B) := by ring
    rw [hrw]
    rw [← Nat.mul_add_lt_is_or (show C * 2 ^ 8 < 2 ^ 16 by norm_num; omega)]
  have h3 : (A * 2 ^ 24 + B * 2 ^ 16 + C * 2 ^ 8) ||| D =
      A * 2 ^ 24 + B * 2 ^ 16 + C * 2 ^ 8 + D := by
    have hrw : A * 2 ^ 24 + B * 2 ^ 16 + C * 2 ^ 8 =
        2 ^ 8 * (2 ^ 16 * A + 2 ^ 8 * B + C) := by ring
    rw [hrw]
    rw [← Nat.mul_add_lt_is_or (show D < 2 ^ 8 by omega)]
  rw [h1, h2, h3]
  ring

theorem ipNumKey_lt_iff (A B C D E F G H : Nat) (hA : A < 256) (hB : B < 256)
    (hC : C < 256) (hD : D < 256) (hE : E < 256) (hF : F < 256)
    (hG : G < 256) (hH : H < 256) :
    (Act23.ipNumKey (A : Int) B C D < Act23.ipNumKey (E : Int) F G H) ↔
      (A < E ∨ (A = E ∧ (B < F ∨ (B = F ∧ (C < G ∨ (C = G ∧ D < H)))))) := by
  rw [ipNumKey_ofNat A B C D hA hB hC hD, ipNumKey_ofNat E F G H hE hF hG hH]
  omega

/-- C6: each of the three IP comparisons of the source — Act3_4's
`IPKey::operator<`, Act5.2's `compareIPs` (on parsed dotted-quad strings),
and the IP part of Act2.3's `lessEntry` — holds exactly when the 32-bit
composite `(o1 << 24) | (o2 << 16) | (o3 << 8) | o4` of the first address is
numerically smaller than that of the second, i.e. the comparison is
octet-wise numeric, never lexicographic on the strings. -/
theorem ip_comparison_matches_composite (a1 a2 a3 a4 b1 b2 b3 b4 : Nat)
    (ha1 : a1 < 256) (ha2 : a2 < 256) (ha3 : a3 < 256) (ha4 : a4 < 256)
    (hb1 : b1 < 256) (hb2 : b2 < 256) (hb3 : b3 < 256) (hb4 : b4 < 256) :
    (Act34.IPKey.lt ⟨(a1 : Int), a2, a3, a4⟩ ⟨(b1 : Int), b2, b3, b4⟩ = true ↔
      Act23.ipNumKey (a1 : Int) a2 a3 a4 < Act23.ipNumKey (b1 : Int) b2 b3 b4) ∧
    (∀ s1 s2 : String,
      Act52.parseIPOctets s1 = ([(a1 : Int), a2, a3, a4], 4) →
      Act52.parseIPOctets s2 = ([(b1 : Int), b2, b3, b4], 4) →
      (Act52.compareIPs s1 s2 = true ↔
        Act23.ipNumKey (a1 : Int) a2 a3 a4 <
          Act23.ipNumKey (b1 : Int) b2 b3 b4)) ∧
    (∀ e1 e2 : entry,
      e1.ip1 = (a1 : Int) → e1.ip2 = (a2 : Int) → e1.ip3 = (a3 : Int) →
      e1.ip4 = (a4 : Int) →
      e2.ip1 = (b1 : Int) → e2.ip2 = (b2 : Int) → e2.ip3 = (b3 : Int) →
      e2.ip4 = (b4 : Int) →
      ¬(a1 = b1 ∧ a2 = b2 ∧ a3 = b3 ∧ a4 = b4) →
      (Act23.lessEntry e1 e2 = true ↔
        Act23.ipNumKey (a1 : Int) a2 a3 a4 <
          Act23.ipNumKey (b1 : Int) b2 b3 b4)) := by
  rw [ipNumKey_lt_iff a1 a2 a3 a4 b1 b2 b3 b4 ha1 ha2 ha3 ha4 hb1 hb2 hb3 hb4]
  refine ⟨?_, ?_, ?_⟩
  · simp only [Act34.IPKey.lt]
    split_ifs <;> simp only [decide_eq_true_eq] <;> omega
  · intro s1 s2 hp1 hp2
    unfold Act52.compareIPs
    rw [hp1, hp2]
    simp only [Act52.cmpOctetLists]
    split_ifs <;>
      simp only [decide_eq_true_eq, Bool.false_eq_true, false_iff] <;> omega
  · intro e1 e2 h11 h12 h13 h14 h21 h22 h23 h24 hne
    simp only [Act23.lessEntry, h11, h12, h13, h14, h21, h22, h23, h24]
    split_ifs <;> simp only [decide_eq_true_eq] <;> omega

def lexiA : entry :=
  { month := 7, day := 18, hour := 7, min := 53, sec := 22,
    totalTime := total_time 7 18 7 53 22, ip1 := 1, ip2 := 2, ip3 := 3,
    ip4 := 9, port := 80, reason := "x",
    originLine := "Jul 18 07:53:22 1.2.3.9:80 x" }

def lexiB : entry :=
  { month := 7, day := 18, hour := 7, min := 53, sec := 22,
    totalTime := total_time 7 18 7 53 22, ip1 := 1, ip2 := 2, ip3 := 3,
    ip4 := 10, port := 80, reason := "x",
    originLine := "Jul 18 07:53:22 1.2.3.10:80 x" }

theorem ip_comparison_matches_composite_witness :
    (Act34.IPKey.lt ⟨(1 : Int), 2, 3, 9⟩ ⟨(1 : Int), 2, 3, 10⟩ = true ↔
      Act23.ipNumKey (1 : Int) 2 3 9 < Act23.ipNumKey (1 : Int) 2 3 10) ∧
    (Act52.compareIPs "1.2.3.9" "1.2.3.10" = true ↔
      Act23.ipNumKey (1 : Int) 2 3 9 < Act23.ipNumKey (1 : Int) 2 3 10) ∧
    (Act23.lessEntry lexiA lexiB = true ↔
      Act23.ipNumKey (1 : Int) 2 3 9 < Act23.ipNumKey (1 : Int) 2 3 10) := by
  have h := ip_comparison_matches_composite 1 2 3 9 1 2 3 10
    (by omega) (by omega) (by omega) (by omega)
    (by omega) (by omega) (by omega) (by omega)
  exact ⟨h.1, h.2.1 "1.2.3.9" "1.2.3.10" (by decide) (by decide),
    h.2.2 lexiA lexiB rfl rfl rfl rfl rfl rfl rfl rfl (by omega)⟩

/-! ## Top-5 ranking (claim C5) -/

namespace Act34

/-- Arithmetic reading of the section-5.3 comparator. -/
def ordP (a b : IPData) : Prop :=
  b.count < a.count ∨
    (a.count = b.count ∧
      (b.key.ip1 < a.key.ip1 ∨
        (b.key.ip1 = a.key.ip1 ∧
          (b.key.ip2 < a.key.ip2 ∨
            (b.key.ip2 = a.key.ip2 ∧
              (b.key.ip3 < a.key.ip3 ∨
                (b.key.ip3 = a.key.ip3 ∧ b.key.ip4 < a.key.ip4)))))))

theorem accessOrder_iff (a b : IPData) : accessOrder a b = true ↔ ordP a b := by
  unfold accessOrder ordP
  split_ifs <;> simp only [decide_eq_true_eq, Bool.false_eq_true, false_iff] <;>
    omega

theorem keyLt_iff (x y : IPKey) :
    IPKey.lt x y = true ↔
      (x.ip1 < y.ip1 ∨
        (x.ip1 = y.ip1 ∧
          (x.ip2 < y.ip2 ∨
            (x.ip2 = y.ip2 ∧
              (x.ip3 < y.ip3 ∨ (x.ip3 = y.ip3 ∧ x.ip4 < y.ip4)))))) := by
  unfold IPKey.lt
  split_ifs <;> simp only [decide_eq_true_eq, Bool.false_eq_true, false_iff] <;>
    omega

theorem sortLe_trans (a b c : IPData) :
    (!accessOrder b a) = true → (!accessOrder c b) = true →
    (!accessOrder c a) = true := by
  simp only [Bool.not_eq_true']
  intro h1 h2
  rw [← Bool.not_eq_true] at h1 h2 ⊢
  rw [accessOrder_iff] at h1 h2 ⊢
  unfold ordP at h1 h2 ⊢
  omega

theorem sortLe_total (a b : IPData) :
    ((!accessOrder b a) || (!accessOrder a b)) = true := by
  simp only [Bool.or_eq_true, Bool.not_eq_true']
  by_contra hcon
  push_neg at hcon
  obtain ⟨h1, h2⟩ := hcon
  rw [Bool.ne_false_iff] at h1 h2
  rw [accessOrder_iff] at h1 h2
  unfold ordP at h1 h2
  omega

end Act34

/-- C5: on any group list with pairwise distinct IP keys (as the
`map<IPKey, …>` produces), the top-K query of Act3_4 sorts the groups by
access count descending with ties broken towards the numerically larger
(octet-wise) IP, and outputs exactly the first `min(5, number of groups)`
groups of that order. -/
theorem act34_top5_order (gs : List Act34.IPData)
    (hnd : gs.Pairwise (fun a b => a.key ≠ b.key)) :
    Act34.topGroups gs = (Act34.sortByAccess gs).take (min 5 gs.length) ∧
    (Act34.sortByAccess gs).Perm gs ∧
    (Act34.sortByAccess gs).Pairwise (fun a b =>
      b.count < a.count ∨
        (a.count = b.count ∧ Act34.IPKey.lt b.key a.key = true)) := by
  refine ⟨rfl, List.mergeSort_perm gs _, ?_⟩
  have hsorted : (Act34.sortByAccess gs).Pairwise
      (fun a b => (!Act34.accessOrder b a) = true) :=
    List.sorted_mergeSort
      (fun a b c => Act34.sortLe_trans a b c)
      (fun a b => Act34.sortLe_total a b) gs
  have hndSorted : (Act34.sortByAccess gs).Pairwise
      (fun a b => a.key ≠ b.key) :=
    ((List.mergeSort_perm gs _).pairwise_iff
      (fun {x y} (h : x.key ≠ y.key) => h.symm)).mpr hnd
  refine (hsorted.and hndSorted).imp ?_
  rintro a b ⟨hle, hne⟩
  rw [Bool.not_eq_true'] at hle
  rw [← Bool.not_eq_true, Act34.accessOrder_iff] at hle
  rw [Act34.keyLt_iff]
  obtain ⟨⟨a1, a2, a3, a4⟩, aE, aC⟩ := a
  obtain ⟨⟨b1, b2, b3, b4⟩, bE, bC⟩ := b
  unfold Act34.ordP at hle
  simp only [ne_eq, Act34.IPKey.mk.injEq, not_and] at hne
  dsimp only at hle ⊢
  by_cases h1 : a1 = b1 <;> by_cases h2 : a2 = b2 <;>
    by_cases h3 : a3 = b3 <;> by_cases h4 : a4 = b4 <;>
      simp_all <;> omega

def topGroupsInput : List Act34.IPData :=
  [{ key := { ip1 := 10, ip2 := 0, ip3 := 0, ip4 := 5 }, entries := [],
     count := 2 },
   { key := { ip1 := 10, ip2 := 0, ip3 := 0, ip4 := 9 }, entries := [],
     count := 2 },
   { key := { ip1 := 9, ip2 := 0, ip3 := 0, ip4 := 1 }, entries := [],
     count := 7 }]

theorem act34_top5_order_witness :
    Act34.topGroups topGroupsInput =
      (Act34.sortByAccess topGroupsInput).take (min 5 3) ∧
    (Act34.sortByAccess topGroupsInput).Perm topGroupsInput ∧
    (Act34.sortByAccess topGroupsInput).Pairwise (fun a b =>
      b.count < a.count ∨
        (a.count = b.count ∧ Act34.IPKey.lt b.key a.key = true)) := by
  have h := act34_top5_order topGroupsInput (by decide)
  exact ⟨h.1, h.2.1, h.2.2⟩

/-! ## Merge sort of the doubly linked list (claim C8) -/

namespace Act23

/-- The composite key `(ip1, ip2, ip3, ip4, totalTime, reason)` of a log
entry, ordered lexicographically. -/
def entKey (e : entry) :
    Lex (Int × Lex (Int × Lex (Int × Lex (Int × Lex (Int × String))))) :=
  toLex (e.ip1, toLex (e.ip2, toLex (e.ip3, toLex (e.ip4,
    toLex (e.totalTime, e.reason)))))

theorem lessEntry_iff_key (a b : entry) :
    lessEntry a b = true ↔ entKey a < entKey b := by
  unfold lessEntry entKey
  rw [Prod.Lex.lt_iff, Prod.Lex.lt_iff, Prod.Lex.lt_iff, Prod.Lex.lt_iff,
    Prod.Lex.lt_iff]
  dsimp only
  split_ifs with h1 h2 h3 h4 h5 <;>
    simp_all [not_ne_iff, decide_eq_true_eq, lt_self_iff_false]

theorem lessEntry_false_iff (a b : entry) :
    lessEntry a b = false ↔ entKey b ≤ entKey a := by
  rw [← Bool.not_eq_true, not_iff_comm, not_le, lessEntry_iff_key]

theorem lessEntry_asymm {a b : entry} (h : lessEntry a b = true) :
    lessEntry b a = false := by
  rw [lessEntry_iff_key] at h
  rw [lessEntry_false_iff]
  exact le_of_lt h

theorem lessEntry_ge_trans {a b c : entry} (h1 : lessEntry b a = false)
    (h2 : lessEntry c b = false) : lessEntry c a = false := by
  rw [lessEntry_false_iff] at h1 h2 ⊢
  exact le_trans h1 h2

theorem mergeLists_perm :
    ∀ (fuel : Nat) (l1 l2 : List entry),
      (mergeLists fuel l1 l2).Perm (l1 ++ l2) := by
  intro fuel
  induction fuel with
  | zero =>
    intro l1 l2
    cases l1 <;> cases l2 <;> simp [mergeLists]
  | succ f ih =>
    intro l1 l2
    cases l1 with
    | nil => simp [mergeLists]
    | cons a l1t =>
      cases l2 with
      | nil => simp [mergeLists]
      | cons b l2t =>
        simp only [mergeLists]
        split
        · exact List.Perm.cons a (ih l1t (b :: l2t))
        · exact List.Perm.trans (List.Perm.cons b (ih (a :: l1t) l2t))
            List.perm_middle.symm

theorem mergeLists_pairwise :
    ∀ (fuel : Nat) (l1 l2 : List entry), l1.length + l2.length ≤ fuel →
      l1.Pairwise (fun x y => lessEntry y x = false) →
      l2.Pairwise (fun x y => lessEntry y x = false) →
      (mergeLists fuel l1 l2).Pairwise
        (fun x y => lessEntry y x = false) := by
  intro fuel
  induction fuel with
  | zero =>
    intro l1 l2 hlen h1 h2
    cases l1 with
    | nil => simpa [mergeLists] using h2
    | cons a l1t => simp at hlen
  | succ f ih =>
    intro l1 l2 hlen h1 h2
    cases l1 with
    | nil => simpa [mergeLists] using h2
    | cons a l1t =>
      cases l2 with
      | nil => simpa [mergeLists] using h1
      | cons b l2t =>
        rw [List.pairwise_cons] at h1 h2
        simp only [mergeLists]
        split
        · rename_i hab
          rw [List.pairwise_cons]
          constructor
          · intro x hx
            rw [(mergeLists_perm f l1t (b :: l2t)).mem_iff] at hx
            rcases List.mem_append.mp hx with hx1 | hx2
            · exact h1.1 x hx1
            · rcases List.mem_cons.mp hx2 with rfl | hx2t
              · exact lessEntry_asymm hab
              · exact lessEntry_ge_trans (lessEntry_asymm hab) (h2.1 x hx2t)
          · refine ih l1t (b :: l2t) (by simp at hlen ⊢; omega) h1.2 ?_
            rw [List.pairwise_cons]
            exact h2
        · rename_i hab
          rw [Bool.not_eq_true] at hab
          rw [List.pairwise_cons]
          constructor
          · intro x hx
            rw [(mergeLists_perm f (a :: l1t) l2t).mem_iff] at hx
            rcases List.mem_append.mp hx with hx1 | hx2
            · rcases List.mem_cons.mp hx1 with rfl | hx1t
              · exact hab
              · exact lessEntry_ge_trans hab (h1.1 x hx1t)
            · exact h2.1 x hx2
          · refine ih (a :: l1t) l2t (by simp at hlen ⊢; omega) ?_ h2.2
            rw [List.pairwise_cons]
            exact h1

theorem mergeSortRec_perm :
    ∀ (fuel : Nat) (l : List entry), (mergeSortRec fuel l).Perm l := by
  intro fuel
  induction fuel with
  | zero => intro l; exact List.Perm.refl l
  | succ f ih =>
    intro l
    simp only [mergeSortRec]
    split
    · exact List.Perm.refl l
    · unfold mergeSortedLists
      refine List.Perm.trans (mergeLists_perm _ _ _) ?_
      refine List.Perm.trans (List.Perm.append (ih _) (ih _)) ?_
      rw [List.take_append_drop]

theorem mergeSortRec_sorted :
    ∀ (fuel : Nat) (l : List entry), l.length ≤ fuel →
      (mergeSortRec fuel l).Pairwise (fun x y => lessEntry y x = false) := by
  intro fuel
  induction fuel with
  | zero =>
    intro l hlen
    rw [Nat.le_zero, List.length_eq_zero] at hlen
    subst hlen
    exact List.Pairwise.nil
  | succ f ih =>
    intro l hlen
    simp only [mergeSortRec]
    split
    · rename_i hshort
      cases l with
      | nil => exact List.Pairwise.nil
      | cons x t =>
        cases t with
        | nil => exact List.pairwise_singleton _ x
        | cons y t2 => simp at hshort
    · rename_i hlong
      unfold mergeSortedLists
      apply mergeLists_pairwise
      · exact le_refl _
      · refine ih _ ?_
        rw [List.length_take]
        simp only [not_le] at hlong
        omega
      · refine ih _ ?_
        rw [List.length_drop]
        simp only [not_le] at hlong
        omega

end Act23

/-- C8 (amended): `mergeSortList` produces the same multiset of entries,
ordered ascending by the composite key `(IP octet-wise, then totalTime, then
reason)`; its merge step is a two-pointer merge, but on exactly equal
composite keys (`lessEntry(first, second) = false` with
`lessEntry(second, first) = false`) it emits the element of the SECOND
(later) half first — the opposite of the claimed stable orientation. -/
theorem act23_mergesort_sorts (l : List entry) :
    (Act23.mergeSortList l).Perm l ∧
    (Act23.mergeSortList l).Pairwise
      (fun x y => Act23.lessEntry y x = false) ∧
    (∀ (a : entry) (l1 : List entry) (b : entry) (l2 : List entry),
      Act23.lessEntry a b = false →
      Act23.mergeSortedLists (a :: l1) (b :: l2) =
        b :: Act23.mergeLists (l1.length + l2.length + 1) (a :: l1) l2) := by
  refine ⟨Act23.mergeSortRec_perm _ _,
    Act23.mergeSortRec_sorted _ _ (le_of_eq rfl), ?_⟩
  intro a l1 b l2 hab
  unfold Act23.mergeSortedLists
  simp only [List.length_cons]
  have harith : l1.length + 1 + (l2.length + 1) = (l1.length + l2.length + 1) + 1 := by
    omega
  rw [harith]
  simp only [Act23.mergeLists, hab]
  rfl

/-- Two entries with exactly equal composite keys (same IP, same timestamp,
same reason) that are nevertheless distinguishable (different source port
and different original line). -/
def tieFirst : entry :=
  { month := 7, day := 18, hour := 7, min := 53, sec := 22,
    totalTime := total_time 7 18 7 53 22, ip1 := 10, ip2 := 0, ip3 := 0,
    ip4 := 5, port := 6526, reason := "timeout",
    originLine := "Jul 18 07:53:22 10.0.0.5:6526 timeout" }

def tieSecond : entry :=
  { month := 7, day := 18, hour := 7, min := 53, sec := 22,
    totalTime := total_time 7 18 7 53 22, ip1 := 10, ip2 := 0, ip3 := 0,
    ip4 := 5, port := 81, reason := "timeout",
    originLine := "Jul 18 07:53:22 10.0.0.5:81 timeout" }

/-- Counterexample to C8 as stated: `tieFirst` sits in the first half and
`tieSecond` in the second half, their composite keys are exactly equal, yet
the merged output places the second-half element first. -/
theorem act23_merge_not_stable_counterexample :
    Act23.lessEntry tieFirst tieSecond = false ∧
    Act23.lessEntry tieSecond tieFirst = false ∧
    tieFirst.originLine ≠ tieSecond.originLine ∧
    Act23.mergeSortedLists [tieFirst] [tieSecond] = [tieSecond, tieFirst] ∧
    Act23.mergeSortList [tieFirst, tieSecond] = [tieSecond, tieFirst] := by
  have hkey : Act23.entKey tieFirst = Act23.entKey tieSecond := rfl
  have h1 : Act23.lessEntry tieFirst tieSecond = false := by
    rw [Act23.lessEntry_false_iff, ← hkey]
  have h2 : Act23.lessEntry tieSecond tieFirst = false := by
    rw [Act23.lessEntry_false_iff, hkey]
  refine ⟨h1, h2, by decide, ?_, ?_⟩
  · simp [Act23.mergeSortedLists, Act23.mergeLists, h1]
  · simp [Act23.mergeSortList, Act23.mergeSortRec, Act23.mergeSortedLists,
      Act23.mergeLists, h1]

/-! ## Range query over the sorted list (claim C7) -/

namespace Act23

/-- Octets of a parsed dotted quad: each `int` field holds a value in
`[0, 256)`. -/
def octetsBounded (e : entry) : Prop :=
  0 ≤ e.ip1 ∧ e.ip1 < 256 ∧ 0 ≤ e.ip2 ∧ e.ip2 < 256 ∧
    0 ≤ e.ip3 ∧ e.ip3 < 256 ∧ 0 ≤ e.ip4 ∧ e.ip4 < 256

instance (e : entry) : Decidable (octetsBounded e) := by
  unfold octetsBounded
  infer_instance

theorem ipVal_le_of_sorted {a b : entry} (hab : lessEntry b a = false)
    (ha : octetsBounded a) (hb : octetsBounded b) : ipVal a ≤ ipVal b := by
  obtain ⟨ha1, ha1u, ha2, ha2u, ha3, ha3u, ha4, ha4u⟩ := ha
  obtain ⟨hb1, hb1u, hb2, hb2u, hb3, hb3u, hb4, hb4u⟩ := hb
  have ea1 : a.ip1 = ((a.ip1.toNat : Nat) : Int) := (Int.toNat_of_nonneg ha1).symm
  have ea2 : a.ip2 = ((a.ip2.toNat : Nat) : Int) := (Int.toNat_of_nonneg ha2).symm
  have ea3 : a.ip3 = ((a.ip3.toNat : Nat) : Int) := (Int.toNat_of_nonneg ha3).symm
  have ea4 : a.ip4 = ((a.ip4.toNat : Nat) : Int) := (Int.toNat_of_nonneg ha4).symm
  have eb1 : b.ip1 = ((b.ip1.toNat : Nat) : Int) := (Int.toNat_of_nonneg hb1).symm
  have eb2 : b.ip2 = ((b.ip2.toNat : Nat) : Int) := (Int.toNat_of_nonneg hb2).symm
  have eb3 : b.ip3 = ((b.ip3.toNat : Nat) : Int) := (Int.toNat_of_nonneg hb3).symm
  have eb4 : b.ip4 = ((b.ip4.toNat : Nat) : Int) := (Int.toNat_of_nonneg hb4).symm
  rw [Nat.le_iff_lt_or_eq]
  by_contra hcon
  push_neg at hcon
  obtain ⟨hlt, hne⟩ := hcon
  have hval : ipVal b < ipVal a := by omega
  unfold ipVal at hval
  rw [ea1, ea2, ea3, ea4, eb1, eb2, eb3, eb4] at hval
  rw [ipNumKey_lt_iff _ _ _ _ _ _ _ _ (by omega) (by omega) (by omega)
    (by omega) (by omega) (by omega) (by omega) (by omega)] at hval
  have hkey : entKey b < entKey a := by
    unfold entKey
    rw [Prod.Lex.lt_iff, Prod.Lex.lt_iff, Prod.Lex.lt_iff, Prod.Lex.lt_iff,
      Prod.Lex.lt_iff]
    dsimp only
    omega
  rw [← lessEntry_iff_key] at hkey
  rw [hab] at hkey
  exact absurd hkey (by simp)

theorem lowerBoundIP_none_spec :
    ∀ (L : List entry) (key : Nat), lowerBoundIP L key = none →
      ∀ e ∈ L, ipVal e < key := by
  intro L
  induction L with
  | nil => intro key _ e he; exact absurd he (List.not_mem_nil e)
  | cons x rest ih =>
    intro key hnone e he
    rw [lowerBoundIP] at hnone
    split at hnone
    · exact absurd hnone (by simp)
    · rename_i hx
      rcases List.mem_cons.mp he with rfl | ht
      · omega
      · rcases hrec : lowerBoundIP rest key with _ | s
        · exact ih key hrec e ht
        · rw [hrec] at hnone; exact Option.noConfusion hnone

theorem lowerBoundIP_some_spec :
    ∀ (L : List entry) (key s : Nat), lowerBoundIP L key = some s →
      (∃ e, L[s]? = some e ∧ key ≤ ipVal e) ∧
        (∀ i e, i < s → L[i]? = some e → ipVal e < key) := by
  intro L
  induction L with
  | nil => intro key s h; exact absurd h (by simp [lowerBoundIP])
  | cons x rest ih =>
    intro key s h
    rw [lowerBoundIP] at h
    split at h
    · rename_i hx
      obtain rfl : s = 0 := by
        cases h; rfl
      exact ⟨⟨x, List.getElem?_cons_zero, hx⟩, fun i e hi => absurd hi (by omega)⟩
    · rename_i hx
      rcases hrec : lowerBoundIP rest key with _ | s2
      · rw [hrec] at h; exact Option.noConfusion h
      · rw [hrec] at h
        obtain rfl : s = s2 + 1 := by cases h; rfl
        obtain ⟨⟨e2, he2, hkey⟩, hbefore⟩ := ih key s2 hrec
        refine ⟨⟨e2, by simpa using he2, hkey⟩, ?_⟩
        intro i e hi hie
        cases i with
        | zero =>
          simp only [List.getElem?_cons_zero, Option.some_inj] at hie
          subst hie
          omega
        | succ i2 =>
          rw [List.getElem?_cons_succ] at hie
          exact hbefore i2 e (by omega) hie

theorem upperBoundIP_none_spec :
    ∀ (L : List entry) (key : Nat), upperBoundIP L key = none →
      ∀ e ∈ L, ipVal e ≤ key := by
  intro L
  induction L with
  | nil => intro key _ e he; exact absurd he (List.not_mem_nil e)
  | cons x rest ih =>
    intro key hnone e he
    rw [upperBoundIP] at hnone
    split at hnone
    · exact absurd hnone (by simp)
    · rename_i hx
      rcases List.mem_cons.mp he with rfl | ht
      · omega
      · rcases hrec : upperBoundIP rest key with _ | s
        · exact ih key hrec e ht
        · rw [hrec] at hnone; exact Option.noConfusion hnone

theorem upperBoundIP_some_spec :
    ∀ (L : List entry) (key u : Nat), upperBoundIP L key = some u →
      (∃ e, L[u]? = some e ∧ key < ipVal e) ∧
        (∀ i e, i < u → L[i]? = some e → ipVal e ≤ key) := by
  intro L
  induction L with
  | nil => intro key u h; exact absurd h (by simp [upperBoundIP])
  | cons x rest ih =>
    intro key u h
    rw [upperBoundIP] at h
    split at h
    · rename_i hx
      obtain rfl : u = 0 := by cases h; rfl
      exact ⟨⟨x, List.getElem?_cons_zero, hx⟩, fun i e hi => absurd hi (by omega)⟩
    · rename_i hx
      rcases hrec : upperBoundIP rest key with _ | u2
      · rw [hrec] at h; exact Option.noConfusion h
      · rw [hrec] at h
        obtain rfl : u = u2 + 1 := by cases h; rfl
        obtain ⟨⟨e2, he2, hkey⟩, hbefore⟩ := ih key u2 hrec
        refine ⟨⟨e2, by simpa using he2, hkey⟩, ?_⟩
        intro i e hi hie
        cases i with
        | zero =>
          simp only [List.getElem?_cons_zero, Option.some_inj] at hie
          subst hie
          omega
        | succ i2 =>
          rw [List.getElem?_cons_succ] at hie
          exact hbefore i2 e (by omega) hie

theorem printBack_eq_slice (L : List entry) :
    ∀ (e s : Nat), s ≤ e → e < L.length →
      printBack L s e =
        (((L.drop s).take (e + 1 - s)).map (fun x => x.originLine)).reverse := by
  intro e
  induction e with
  | zero =>
    intro s hs hlen
    obtain rfl : s = 0 := by omega
    rw [printBack]
    rw [List.getElem?_eq_getElem hlen]
    have h1 : L.drop 0 = L := List.drop_zero L
    rw [h1]
    rw [show (0 + 1 - 0 : Nat) = 1 from rfl]
    rw [List.take_one]
    rw [List.head?_eq_getElem? L, List.getElem?_eq_getElem hlen]
    simp
  | succ e2 ih =>
    intro s hs hlen
    rw [printBack]
    rw [List.getElem?_eq_getElem hlen]
    by_cases hse : e2 + 1 = s
    · rw [if_pos hse]
      subst hse
      rw [List.drop_eq_getElem_cons hlen]
      rw [show e2 + 1 + 1 - (e2 + 1) = 1 from by omega, List.take_succ_cons,
        List.take_zero]
      simp
    · rw [if_neg hse]
      rw [ih s (by omega) (by omega)]
      have htake : (L.drop s).take (e2 + 1 + 1 - s) =
          (L.drop s).take (e2 + 1 - s) ++ [L[e2 + 1]] := by
        have harith : e2 + 1 + 1 - s = (e2 + 1 - s) + 1 := by omega
        rw [harith, List.take_succ]
        have hidx : (L.drop s)[e2 + 1 - s]? = some L[e2 + 1] := by
          rw [List.getElem?_drop]
          rw [show s + (e2 + 1 - s) = e2 + 1 by omega]
          exact List.getElem?_eq_getElem hlen
        rw [hidx]
        rfl
      rw [htake]
      simp

end Act23

theorem filter_eq_take_of_prefix_pass {p : entry → Bool} :
    ∀ (M : List entry) (d : Nat),
      (∀ i e, i < d → M[i]? = some e → p e = true) →
      (∀ i e, d ≤ i → M[i]? = some e → p e = false) →
      M.filter p = M.take d := by
  intro M
  induction M with
  | nil => intro d _ _; simp
  | cons x rest ih =>
    intro d hpass hfail
    cases d with
    | zero =>
      have hx : p x = false := hfail 0 x (le_refl 0) List.getElem?_cons_zero
      rw [List.take_zero, List.filter_cons_of_neg (by simp [hx])]
      refine ih 0 (fun i e hi => absurd hi (by omega)) ?_
      intro i e _ hie
      exact hfail (i + 1) e (by omega) (by simpa using hie)
    | succ d2 =>
      have hx : p x = true := hpass 0 x (by omega) List.getElem?_cons_zero
      rw [List.take_succ_cons, List.filter_cons_of_pos (by simp [hx])]
      rw [ih d2 (fun i e hi hie => hpass (i + 1) e (by omega) (by simpa using hie))
        (fun i e hi hie => hfail (i + 1) e (by omega) (by simpa using hie))]

namespace Act23

theorem rangeQuery_eq_filter (L : List entry) (low high : Nat)
    (hlh : low ≤ high)
    (hmono : L.Pairwise (fun x y => ipVal x ≤ ipVal y))
    (hx : ∃ e ∈ L, low ≤ ipVal e ∧ ipVal e ≤ high) :
    rangeQuery L low high =
      ((L.filter (fun e => decide (low ≤ ipVal e ∧ ipVal e ≤ high))).map
        (fun e => e.originLine)).reverse := by
  obtain ⟨e0, he0mem, he0low, he0high⟩ := hx
  obtain ⟨p, hp, rfl⟩ := List.mem_iff_getElem.mp he0mem
  have hmono2 := List.pairwise_iff_getElem.mp hmono
  rcases hlb : lowerBoundIP L low with _ | s
  · have := lowerBoundIP_none_spec L low hlb _ (L.getElem_mem hp)
    omega
  obtain ⟨⟨es, hes, heslow⟩, hsbefore⟩ := lowerBoundIP_some_spec L low s hlb
  obtain ⟨hs_lt, hes_eq⟩ := List.getElem?_eq_some_iff.mp hes
  have hsp : s ≤ p := by
    by_contra hc
    push_neg at hc
    have := hsbefore p (L[p]) hc (List.getElem?_eq_getElem hp)
    omega
  have hshigh : ipVal es ≤ high := by
    rcases Nat.lt_or_ge s p with hlt | hge
    · have := hmono2 s p hs_lt hp hlt
      rw [hes_eq] at this
      omega
    · have hse : s = p := by omega
      subst hse
      rw [← hes_eq]
      exact he0high
  have hlowall : ∀ i e, s ≤ i → L[i]? = some e → low ≤ ipVal e := by
    intro i e hsi hie
    obtain ⟨hi_lt, rfl⟩ := List.getElem?_eq_some_iff.mp hie
    rcases Nat.eq_or_lt_of_le hsi with rfl | hlt2
    · rw [hes_eq]
      exact heslow
    · have := hmono2 s i hs_lt hi_lt hlt2
      rw [hes_eq] at this
      omega
  have hfilterTake : (L.take s).filter
      (fun e => decide (low ≤ ipVal e ∧ ipVal e ≤ high)) = [] := by
    rw [List.filter_eq_nil_iff]
    intro e hemem
    obtain ⟨i, hie⟩ := List.mem_iff_getElem?.mp hemem
    have hi_s : i < s := by
      by_contra hc
      push_neg at hc
      rw [List.getElem?_eq_none (by rw [List.length_take]; omega)] at hie
      exact Option.noConfusion hie
    have hLi : L[i]? = some e := by
      rw [← List.getElem?_take_of_lt hi_s]
      exact hie
    have := hsbefore i e hi_s hLi
    simp only [decide_eq_true_eq]
    omega
  rcases hub : upperBoundIP (L.drop s) high with _ | d
  · have hall := upperBoundIP_none_spec _ _ hub
    have hL0 : ¬ L.length = 0 := by omega
    have hcompute : rangeQuery L low high = printBack L s (L.length - 1) := by
      simp only [rangeQuery, if_neg (show ¬ high < low by omega), hlb, hub,
        Option.map_none', if_neg hL0]
    rw [hcompute]
    rw [printBack_eq_slice L (L.length - 1) s (by omega) (by omega)]
    have hslice : (L.drop s).take (L.length - 1 + 1 - s) = L.drop s := by
      apply List.take_of_length_le
      rw [L.length_drop]
      omega
    rw [hslice]
    have hfilterDrop : (L.drop s).filter
        (fun e => decide (low ≤ ipVal e ∧ ipVal e ≤ high)) = L.drop s := by
      rw [List.filter_eq_self]
      intro e hemem
      obtain ⟨i, hie⟩ := List.mem_iff_getElem?.mp hemem
      rw [List.getElem?_drop] at hie
      have h1 := hlowall (s + i) e (by omega) hie
      have h2 := hall e hemem
      simp only [decide_eq_true_eq]
      omega
    have hfL : L.filter (fun e => decide (low ≤ ipVal e ∧ ipVal e ≤ high)) =
        L.drop s := by
      conv_lhs => rw [← List.take_append_drop s L]
      rw [List.filter_append, hfilterTake, hfilterDrop, List.nil_append]
    rw [hfL]
  · obtain ⟨⟨ed, hed, hedhigh⟩, hdbefore⟩ := upperBoundIP_some_spec _ _ d hub
    obtain ⟨hd_lt, hed_eq⟩ := List.getElem?_eq_some_iff.mp hed
    have hdroplen : (L.drop s).length = L.length - s := L.length_drop s
    have hd1 : 1 ≤ d := by
      by_contra hc
      push_neg at hc
      have hd0 : d = 0 := by omega
      subst hd0
      have hthis : (L.drop s)[0]? = L[s]? := by
        rw [List.getElem?_drop, Nat.add_zero]
      rw [List.getElem?_eq_getElem hs_lt, hes_eq, hed] at hthis
      have heds : ed = es := by cases hthis; rfl
      rw [heds] at hedhigh
      omega
    have hsd : s + d ≠ 0 := by omega
    have hsd_lt : s + d - 1 < L.length := by omega
    have hcompute : rangeQuery L low high = printBack L s (s + d - 1) := by
      simp only [rangeQuery, if_neg (show ¬ high < low by omega), hlb, hub,
        Option.map_some', if_neg hsd]
    rw [hcompute]
    rw [printBack_eq_slice L (s + d - 1) s (by omega) hsd_lt]
    have harith : s + d - 1 + 1 - s = d := by omega
    rw [harith]
    have hfilterDrop : (L.drop s).filter
        (fun e => decide (low ≤ ipVal e ∧ ipVal e ≤ high)) =
          (L.drop s).take d := by
      apply filter_eq_take_of_prefix_pass
      · intro i e hi hie
        have h2 := hdbefore i e hi hie
        rw [List.getElem?_drop] at hie
        have h1 := hlowall (s + i) e (by omega) hie
        simp only [decide_eq_true_eq]
        omega
      · intro i e hi hie
        have hglobal : L[s + i]? = some e := by
          rw [← List.getElem?_drop]
          exact hie
        obtain ⟨hgi, hgeq⟩ := List.getElem?_eq_some_iff.mp hglobal
        have hval : high < ipVal e := by
          rcases Nat.eq_or_lt_of_le hi with rfl | hlt2
          · have heed : e = ed := Option.some.inj (hie.symm.trans hed)
            rw [heed]
            exact hedhigh
          · have hgd : L[s + d]? = some ed := by
              rw [← List.getElem?_drop]
              exact hed
            obtain ⟨hgd_lt, hgd_eq⟩ := List.getElem?_eq_some_iff.mp hgd
            have := hmono2 (s + d) (s + i) hgd_lt hgi (by omega)
            rw [hgd_eq, hgeq] at this
            omega
        simp only [decide_eq_false_iff_not]
        omega
    have hfL : L.filter (fun e => decide (low ≤ ipVal e ∧ ipVal e ≤ high)) =
        (L.drop s).take d := by
      conv_lhs => rw [← List.take_append_drop s L]
      rw [List.filter_append, hfilterTake, hfilterDrop, List.nil_append]
    rw [hfL]

theorem rangeQuery_swap (L : List entry) (k1 k2 : Nat) :
    rangeQuery L k1 k2 = rangeQuery L (min k1 k2) (max k1 k2) := by
  rcases Nat.lt_trichotomy k2 k1 with h | h | h
  · have hn : ¬ k1 < k2 := by omega
    have h1 : min k1 k2 = k2 := by omega
    have h2 : max k1 k2 = k1 := by omega
    rw [h1, h2]
    unfold rangeQuery
    rw [if_pos h, if_pos h, if_neg hn, if_neg hn]
  · subst h
    rw [Nat.min_self, Nat.max_self]
  · have h1 : min k1 k2 = k1 := by omega
    have h2 : max k1 k2 = k2 := by omega
    rw [h1, h2]

end Act23

/-- C7 (amended): over an `lessEntry`-sorted list of entries with in-range
octets, (a) a range query whose endpoints bracket every stored IP — in
particular one whose endpoints are the minimum and maximum stored IPs, in
either order, thanks to the auto-swap — outputs every stored record exactly
once, in exactly reversed storage order; and (b) whenever at least one
stored record lies in the (swapped) range, the output is exactly the records
of the half-open interval between the first element `≥ low` and the first
element `> high`, i.e. exactly the in-range records, printed descending.
(The source restriction to a non-empty match set is forced by the
counterexample `act23_range_empty_counterexample`.) -/
theorem act23_range_query_descending (L : List entry) (k1 k2 : Nat)
    (hsort : L.Pairwise (fun x y => Act23.lessEntry y x = false))
    (hb : ∀ e ∈ L, Act23.octetsBounded e) :
    (L ≠ [] →
      (∀ e ∈ L, min k1 k2 ≤ Act23.ipVal e ∧ Act23.ipVal e ≤ max k1 k2) →
      Act23.rangeQuery L k1 k2 = (L.map (fun e => e.originLine)).reverse) ∧
    ((∃ e ∈ L, min k1 k2 ≤ Act23.ipVal e ∧ Act23.ipVal e ≤ max k1 k2) →
      Act23.rangeQuery L k1 k2 =
        ((L.filter (fun e => decide (min k1 k2 ≤ Act23.ipVal e ∧
            Act23.ipVal e ≤ max k1 k2))).map (fun e => e.originLine)).reverse) := by
  have hmono : L.Pairwise (fun x y => Act23.ipVal x ≤ Act23.ipVal y) :=
    hsort.imp_of_mem (fun {x y} hxmem hymem hxy =>
      Act23.ipVal_le_of_sorted hxy (hb x hxmem) (hb y hymem))
  have hcore : (∃ e ∈ L, min k1 k2 ≤ Act23.ipVal e ∧
      Act23.ipVal e ≤ max k1 k2) →
      Act23.rangeQuery L k1 k2 =
        ((L.filter (fun e => decide (min k1 k2 ≤ Act23.ipVal e ∧
            Act23.ipVal e ≤ max k1 k2))).map (fun e => e.originLine)).reverse := by
    intro hx
    rw [Act23.rangeQuery_swap]
    exact Act23.rangeQuery_eq_filter L (min k1 k2) (max k1 k2)
      (by omega) hmono hx
  refine ⟨?_, hcore⟩
  intro hne hall
  have hx : ∃ e ∈ L, min k1 k2 ≤ Act23.ipVal e ∧ Act23.ipVal e ≤ max k1 k2 := by
    obtain ⟨e, he⟩ := List.exists_mem_of_ne_nil L hne
    exact ⟨e, he, hall e he⟩
  rw [hcore hx]
  have : L.filter (fun e => decide (min k1 k2 ≤ Act23.ipVal e ∧
      Act23.ipVal e ≤ max k1 k2)) = L := by
    rw [List.filter_eq_self]
    intro e hemem
    simp only [decide_eq_true_eq]
    exact hall e hemem
  rw [this]

/-- Two sorted entries with IPs 1.0.0.1 and 5.0.0.5. -/
def rqOne : entry :=
  { month := 1, day := 1, hour := 0, min := 0, sec := 0,
    totalTime := total_time 1 1 0 0 0, ip1 := 1, ip2 := 0, ip3 := 0,
    ip4 := 1, port := 0, reason := "a", originLine := "one" }

def rqFive : entry :=
  { month := 1, day := 1, hour := 0, min := 0, sec := 0,
    totalTime := total_time 1 1 0 0 0, ip1 := 5, ip2 := 0, ip3 := 0,
    ip4 := 5, port := 0, reason := "b", originLine := "five" }

theorem act23_range_query_descending_witness :
    Act23.rangeQuery [rqOne, rqFive] (Act23.ipVal rqFive) (Act23.ipVal rqOne) =
      (([rqOne, rqFive].map (fun e => e.originLine)).reverse) ∧
    Act23.rangeQuery [rqOne, rqFive] (Act23.ipVal rqFive) (Act23.ipVal rqFive) =
      (([rqOne, rqFive].filter (fun e =>
          decide (min (Act23.ipVal rqFive) (Act23.ipVal rqFive) ≤
              Act23.ipVal e ∧
            Act23.ipVal e ≤ max (Act23.ipVal rqFive) (Act23.ipVal rqFive)))).map
        (fun e => e.originLine)).reverse := by
  constructor
  · exact (act23_range_query_descending [rqOne, rqFive] (Act23.ipVal rqFive)
      (Act23.ipVal rqOne) (by decide) (by decide)).1 (by decide) (by decide)
  · exact (act23_range_query_descending [rqOne, rqFive] (Act23.ipVal rqFive)
      (Act23.ipVal rqFive) (by decide) (by decide)).2
      ⟨rqFive, by decide, by decide⟩

/-- Counterexample to C7 as stated: for the sorted two-element list with IPs
1.0.0.1 and 5.0.0.5 and the query range [2.0.0.0, 3.0.0.0], no stored record
lies in the range (the half-open interval between the bounds is empty), yet
the program prints the record "one", which is outside the range — the output
is not the match set. -/
theorem act23_range_empty_counterexample :
    ([rqOne, rqFive].Pairwise (fun x y => Act23.lessEntry y x = false)) ∧
    (∀ e ∈ [rqOne, rqFive], Act23.octetsBounded e) ∧
    ([rqOne, rqFive].filter (fun e =>
        decide (Act23.ipNumKey 2 0 0 0 ≤ Act23.ipVal e ∧
          Act23.ipVal e ≤ Act23.ipNumKey 3 0 0 0)) = []) ∧
    Act23.rangeQuery [rqOne, rqFive]
        (Act23.ipNumKey 2 0 0 0) (Act23.ipNumKey 3 0 0 0) = ["one"] := by
  exact ⟨by decide, by decide, by decide, by decide⟩

/-! ## Open-addressing correctness (claims C1, C2) -/

namespace Act52

theorem probeSearch_found {cap : Nat} (hc : 0 < cap) (t : HashTable)
    (k : String) :
    ∀ (i h fuel : Nat), i < fuel →
      (∀ m, m < i → ∃ q, t.slots ((h + m) % cap) = some q ∧ q.network ≠ k) →
      (∃ r, t.slots ((h + i) % cap) = some r ∧ r.network = k) →
      probeSearch cap t k (h % cap) fuel = some ((h + i) % cap) := by
  intro i
  induction i with
  | zero =>
    intro h fuel hfuel _ hhit
    obtain ⟨r, hr, hrk⟩ := hhit
    rw [Nat.add_zero] at hr ⊢
    cases fuel with
    | zero => omega
    | succ f =>
      simp only [probeSearch, hr]
      rw [if_pos hrk]
  | succ i2 ih =>
    intro h fuel hfuel hmiss hhit
    cases fuel with
    | zero => omega
    | succ f =>
      obtain ⟨q, hq, hqk⟩ := hmiss 0 (by omega)
      rw [Nat.add_zero] at hq
      simp only [probeSearch, hq]
      rw [if_neg hqk, Nat.mod_add_mod]
      rw [show h + (i2 + 1) = h + 1 + i2 by omega]
      refine ih (h + 1) f (by omega) ?_ ?_
      · intro m hm
        rw [show h + 1 + m = h + (m + 1) by omega]
        exact hmiss (m + 1) (by omega)
      · rw [show h + 1 + i2 = h + (i2 + 1) by omega]
        exact hhit

theorem probeSearch_none {cap : Nat} (hc : 0 < cap) (t : HashTable)
    (k : String)
    (habsent : ∀ j r, t.slots j = some r → r.network ≠ k) :
    ∀ (fuel h : Nat), (∃ i, i < fuel ∧ t.slots ((h + i) % cap) = none) →
      probeSearch cap t k (h % cap) fuel = none := by
  intro fuel
  induction fuel with
  | zero => intro h _; rfl
  | succ f ih =>
    intro h hex
    rcases hslot : t.slots (h % cap) with _ | r
    · simp only [probeSearch, hslot]
    · simp only [probeSearch, hslot]
      rw [if_neg (habsent _ _ hslot), Nat.mod_add_mod]
      apply ih (h + 1)
      obtain ⟨i, hi, hnone⟩ := hex
      cases i with
      | zero =>
        exfalso
        rw [Nat.add_zero] at hnone
        rw [hslot] at hnone
        exact Option.noConfusion hnone
      | succ i2 =>
        exact ⟨i2, by omega, by
          rw [show h + 1 + i2 = h + (i2 + 1) by omega]
          exact hnone⟩

theorem exists_probe_hit {cap : Nat} (hc : 0 < cap) (h j : Nat)
    (hj : j < cap) : ∃ i, i < cap ∧ (h + i) % cap = j := by
  have hh : h % cap < cap := Nat.mod_lt _ hc
  rcases le_or_lt (h % cap) j with hle | hlt
  · refine ⟨j - h % cap, by omega, ?_⟩
    rw [Nat.add_mod h, Nat.mod_eq_of_lt (show j - h % cap < cap by omega),
      show h % cap + (j - h % cap) = j by omega, Nat.mod_eq_of_lt hj]
  · refine ⟨cap + j - h % cap, by omega, ?_⟩
    rw [Nat.add_mod h, Nat.mod_eq_of_lt (show cap + j - h % cap < cap by omega),
      show h % cap + (cap + j - h % cap) = cap + j by omega,
      Nat.add_mod_left, Nat.mod_eq_of_lt hj]

theorem probeInsert_spec {cap : Nat} (hc : 0 < cap) (t : HashTable)
    (k ip : String) :
    ∀ (fuel h : Nat) (t2 : HashTable),
      probeInsert cap t k ip (h % cap) fuel = some t2 →
      ∃ i, i < fuel ∧
        (∀ m, m < i → ∃ q, t.slots ((h + m) % cap) = some q ∧
          q.network ≠ k) ∧
        ((t.slots ((h + i) % cap) = none ∧
           t2 = setSlot t ((h + i) % cap) (newNetworkInfo k ip) true) ∨
         (∃ r, t.slots ((h + i) % cap) = some r ∧ r.network = k ∧
           t2 = setSlot t ((h + i) % cap) (updateNetworkInfo r ip) false)) := by
  intro fuel
  induction fuel with
  | zero => intro h t2 hpi; exact Option.noConfusion hpi
  | succ f ih =>
    intro h t2 hpi
    rcases hslot : t.slots (h % cap) with _ | r
    · simp only [probeInsert, hslot] at hpi
      refine ⟨0, by omega, fun m hm => absurd hm (by omega), Or.inl ?_⟩
      rw [Nat.add_zero]
      exact ⟨hslot, by cases hpi; rfl⟩
    · by_cases hrk : r.network = k
      · simp only [probeInsert, hslot] at hpi
        rw [if_pos hrk] at hpi
        refine ⟨0, by omega, fun m hm => absurd hm (by omega), Or.inr ?_⟩
        rw [Nat.add_zero]
        exact ⟨r, hslot, hrk, by cases hpi; rfl⟩
      · simp only [probeInsert, hslot] at hpi
        rw [if_neg hrk, Nat.mod_add_mod] at hpi
        obtain ⟨i2, hi2, hmiss2, hcase2⟩ := ih (h + 1) t2 hpi
        refine ⟨i2 + 1, by omega, ?_, ?_⟩
        · intro m hm
          cases m with
          | zero =>
            rw [Nat.add_zero]
            exact ⟨r, hslot, hrk⟩
          | succ m2 =>
            rw [show h + (m2 + 1) = h + 1 + m2 by omega]
            exact hmiss2 m2 (by omega)
        · rw [show h + (i2 + 1) = h + 1 + i2 by omega]
          exact hcase2

/-- The open-addressing invariant of every reachable table state: occupied
slots live below the capacity, every occupied slot is reachable from its
key's hash index through a fully-occupied mismatching probe prefix, and no
key occupies two slots. -/
structure Inv (cap : Nat) (t : HashTable) : Prop where
  bound : ∀ j r, t.slots j = some r → j < cap
  path : ∀ j r, t.slots j = some r →
    ∃ i, i < cap ∧ (hashFunction cap r.network + i) % cap = j ∧
      ∀ m, m < i → ∃ q,
        t.slots ((hashFunction cap r.network + m) % cap) = some q ∧
          q.network ≠ r.network
  uniq : ∀ j1 j2 r1 r2, t.slots j1 = some r1 → t.slots j2 = some r2 →
    r1.network = r2.network → j1 = j2

theorem inv_init (cap : Nat) : Inv cap initTable :=
  ⟨fun _ _ h => Option.noConfusion h,
   fun _ _ h => Option.noConfusion h,
   fun _ _ _ _ h => Option.noConfusion h⟩

theorem searchNetwork_finds {cap : Nat} (hc : 0 < cap) {t : HashTable}
    (hInv : Inv cap t) {j : Nat} {r : NetworkInfo}
    (hj : t.slots j = some r) : searchNetwork cap t r.network = some j := by
  obtain ⟨i, hi, hpos, hmiss⟩ := hInv.path j r hj
  unfold searchNetwork
  rw [show hashFunction cap r.network =
    hashFunction cap r.network % cap from
      (Nat.mod_eq_of_lt (hashFunction_lt hc _)).symm]
  rw [← hpos]
  exact probeSearch_found hc t r.network i (hashFunction cap r.network) cap
    hi hmiss ⟨r, by rw [hpos]; exact hj, rfl⟩

theorem inv_congr {cap : Nat} {t t2 : HashTable}
    (hmap : ∀ j, Option.map NetworkInfo.network (t2.slots j) =
      Option.map NetworkInfo.network (t.slots j))
    (hInv : Inv cap t) : Inv cap t2 := by
  have hfwd : ∀ j r2, t2.slots j = some r2 →
      ∃ r1, t.slots j = some r1 ∧ r1.network = r2.network := by
    intro j r2 h2
    have := hmap j
    rw [h2] at this
    rcases h1 : t.slots j with _ | r1
    · rw [h1] at this; exact Option.noConfusion this
    · rw [h1] at this
      refine ⟨r1, rfl, ?_⟩
      have h' : r2.network = r1.network := by simpa using this
      exact h'.symm
  have hbwd : ∀ j r1, t.slots j = some r1 →
      ∃ r2, t2.slots j = some r2 ∧ r2.network = r1.network := by
    intro j r1 h1
    have := hmap j
    rw [h1] at this
    rcases h2 : t2.slots j with _ | r2
    · rw [h2] at this; exact Option.noConfusion this
    · rw [h2] at this
      refine ⟨r2, rfl, ?_⟩
      simpa using this
  refine ⟨?_, ?_, ?_⟩
  · intro j r2 h2
    obtain ⟨r1, h1, _⟩ := hfwd j r2 h2
    exact hInv.bound j r1 h1
  · intro j r2 h2
    obtain ⟨r1, h1, hnet⟩ := hfwd j r2 h2
    obtain ⟨i, hi, hpos, hmiss⟩ := hInv.path j r1 h1
    rw [hnet] at hpos hmiss
    refine ⟨i, hi, hpos, ?_⟩
    intro m hm
    obtain ⟨q, hq, hqk⟩ := hmiss m hm
    obtain ⟨q2, hq2, hq2net⟩ := hbwd _ q hq
    exact ⟨q2, hq2, by rw [hq2net]; exact hqk⟩
  · intro j1 j2 r1 r2 h1 h2 hnet
    obtain ⟨s1, hs1, hs1net⟩ := hfwd j1 r1 h1
    obtain ⟨s2, hs2, hs2net⟩ := hfwd j2 r2 h2
    exact hInv.uniq j1 j2 s1 s2 hs1 hs2 (by rw [hs1net, hs2net, hnet])

theorem updateNetworkInfo_network (r : NetworkInfo) (ip : String) :
    (updateNetworkInfo r ip).network = r.network := by
  unfold updateNetworkInfo
  split <;> rfl

theorem insertOrUpdate_step {cap : Nat} {t : HashTable} {k ip : String}
    {t2 : HashTable} (hInv : Inv cap t)
    (hsucc : insertOrUpdate cap t k ip = some t2) :
    0 < cap ∧ Inv cap t2 ∧
    ∃ j, j < cap ∧ (∀ j2, j2 ≠ j → t2.slots j2 = t.slots j2) ∧
      ((t.slots j = none ∧
         (∀ j2 r, t.slots j2 = some r → r.network ≠ k) ∧
         t2.slots j = some (newNetworkInfo k ip)) ∨
       (∃ r, t.slots j = some r ∧ r.network = k ∧
         t2.slots j = some (updateNetworkInfo r ip))) := by
  have hguard : ¬ cap ≤ t.itemCount := by
    intro hge
    unfold insertOrUpdate at hsucc
    rw [if_pos hge] at hsucc
    exact Option.noConfusion hsucc
  have hc : 0 < cap := by omega
  have hpi : probeInsert cap t k ip (hashFunction cap k % cap) cap =
      some t2 := by
    unfold insertOrUpdate at hsucc
    rw [if_neg hguard] at hsucc
    rw [Nat.mod_eq_of_lt (hashFunction_lt hc k)]
    exact hsucc
  obtain ⟨i, hicap, hmiss, hcase⟩ :=
    probeInsert_spec hc t k ip cap (hashFunction cap k) t2 hpi
  refine ⟨hc, ?_, (hashFunction cap k + i) % cap, Nat.mod_lt _ hc, ?_, ?_⟩
  rotate_left
  · intro j2 hne
    rcases hcase with ⟨_, rfl⟩ | ⟨r, _, _, rfl⟩ <;>
      simp only [setSlot, if_neg hne]
  · rcases hcase with ⟨hempty, rfl⟩ | ⟨r, hr, hrk, rfl⟩
    · refine Or.inl ⟨hempty, ?_, by simp [setSlot]⟩
      intro j2 r hj2 hrk2
      obtain ⟨i2, hi2cap, hpos2, hmiss2⟩ := hInv.path j2 r hj2
      rw [hrk2] at hpos2 hmiss2
      rcases Nat.lt_trichotomy i2 i with hlt | heq | hgt
      · obtain ⟨q, hq, hqk⟩ := hmiss i2 hlt
        rw [hpos2, hj2] at hq
        cases hq
        exact hqk hrk2
      · subst heq
        rw [hpos2] at hempty
        rw [hempty] at hj2
        exact Option.noConfusion hj2
      · obtain ⟨q, hq, _⟩ := hmiss2 i hgt
        rw [hempty] at hq
        exact Option.noConfusion hq
    · exact Or.inr ⟨r, hr, hrk, by simp [setSlot]⟩
  -- the invariant for the new table
  rcases hcase with ⟨hempty, rfl⟩ | ⟨r, hr, hrk, rfl⟩
  · -- create case
    have hfresh : ∀ j2 r, t.slots j2 = some r → r.network ≠ k := by
      intro j2 r hj2 hrk2
      obtain ⟨i2, hi2cap, hpos2, hmiss2⟩ := hInv.path j2 r hj2
      rw [hrk2] at hpos2 hmiss2
      rcases Nat.lt_trichotomy i2 i with hlt | heq | hgt
      · obtain ⟨q, hq, hqk⟩ := hmiss i2 hlt
        rw [hpos2, hj2] at hq
        cases hq
        exact hqk hrk2
      · subst heq
        rw [hpos2] at hempty
        rw [hempty] at hj2
        exact Option.noConfusion hj2
      · obtain ⟨q, hq, _⟩ := hmiss2 i hgt
        rw [hempty] at hq
        exact Option.noConfusion hq
    set j := (hashFunction cap k + i) % cap with hjdef
    have hget : ∀ j2, (setSlot t j (newNetworkInfo k ip) true).slots j2 =
        if j2 = j then some (newNetworkInfo k ip) else t.slots j2 := by
      intro j2; rfl
    refine ⟨?_, ?_, ?_⟩
    · intro j2 r2 h2
      rw [hget] at h2
      by_cases hj2 : j2 = j
      · rw [hj2]
        exact Nat.mod_lt _ hc
      · rw [if_neg hj2] at h2
        exact hInv.bound j2 r2 h2
    · intro j2 r2 h2
      rw [hget] at h2
      by_cases hj2 : j2 = j
      · rw [if_pos hj2] at h2
        cases h2
        subst hj2
        refine ⟨i, hicap, hjdef.symm, ?_⟩
        simp only [show (newNetworkInfo k ip).network = k from rfl]
        intro m hm
        obtain ⟨q, hq, hqk⟩ := hmiss m hm
        have hpos_ne : (hashFunction cap k + m) % cap ≠ j := by
          intro habs
          rw [habs] at hq
          rw [hempty] at hq
          exact Option.noConfusion hq
        refine ⟨q, ?_, hqk⟩
        rw [hget, if_neg hpos_ne]
        exact hq
      · rw [if_neg hj2] at h2
        obtain ⟨i2, hi2cap, hpos2, hmiss2⟩ := hInv.path j2 r2 h2
        refine ⟨i2, hi2cap, hpos2, ?_⟩
        intro m hm
        obtain ⟨q, hq, hqk⟩ := hmiss2 m hm
        have hpos_ne : (hashFunction cap r2.network + m) % cap ≠ j := by
          intro habs
          rw [habs] at hq
          rw [hempty] at hq
          exact Option.noConfusion hq
        refine ⟨q, ?_, hqk⟩
        rw [hget, if_neg hpos_ne]
        exact hq
    · intro j1 j2 r1 r2 h1 h2 hnet
      rw [hget] at h1 h2
      by_cases hj1 : j1 = j <;> by_cases hj2 : j2 = j
      · rw [hj1, hj2]
      · rw [if_pos hj1] at h1
        rw [if_neg hj2] at h2
        cases h1
        exact absurd hnet.symm (hfresh j2 r2 h2)
      · rw [if_neg hj1] at h1
        rw [if_pos hj2] at h2
        cases h2
        exact absurd hnet (hfresh j1 r1 h1)
      · rw [if_neg hj1] at h1
        rw [if_neg hj2] at h2
        exact hInv.uniq j1 j2 r1 r2 h1 h2 hnet
  · -- update case: occupancy and per-slot networks unchanged
    refine inv_congr ?_ hInv
    intro j2
    by_cases hj2 : j2 = (hashFunction cap k + i) % cap
    · subst hj2
      simp only [setSlot, if_pos rfl]
      rw [hr]
      simp [updateNetworkInfo_network]
    · simp only [setSlot, if_neg hj2]

/-- Number of ingestion events attributed to network key `k` in the record
history `rs`. -/
def netAccess (rs : List (String × String)) (k : String) : Nat :=
  (rs.filter (fun p => p.1 = k)).length

/-- The child IPs ever inserted for network key `k`, in history order. -/
def netIPs (rs : List (String × String)) (k : String) : List String :=
  (rs.filter (fun p => p.1 = k)).map Prod.snd

theorem ipExists_iff (l : List String) (ip : String) :
    ipExists l ip = true ↔ ip ∈ l := by
  induction l with
  | nil => simp [ipExists]
  | cons x rest ih =>
    rw [ipExists]
    by_cases hx : x = ip
    · simp [hx]
    · rw [if_neg hx, ih]
      simp [List.mem_cons]
      intro heq
      exact absurd heq.symm hx

theorem netAccess_append (rs : List (String × String)) (q : String × String)
    (k : String) :
    netAccess (rs ++ [q]) k = netAccess rs k + (if q.1 = k then 1 else 0) := by
  unfold netAccess
  rw [List.filter_append, List.length_append]
  congr 1
  by_cases h : q.1 = k <;> simp [h]

theorem netIPs_append (rs : List (String × String)) (q : String × String)
    (k : String) :
    netIPs (rs ++ [q]) k =
      netIPs rs k ++ (if q.1 = k then [q.2] else []) := by
  unfold netIPs
  rw [List.filter_append, List.map_append]
  congr 1
  by_cases h : q.1 = k <;> simp [h]

/-- The whole-run invariant: the table invariant plus the exact relation
between each slot's aggregate record and the ingestion history `rs`. -/
structure RunInv (cap : Nat) (rs : List (String × String))
    (t : HashTable) : Prop where
  inv : Inv cap t
  complete : ∀ p, p ∈ rs → ∃ j r, t.slots j = some r ∧ r.network = p.1
  sound : ∀ j r, t.slots j = some r → ∃ p, p ∈ rs ∧ p.1 = r.network
  agg : ∀ j r, t.slots j = some r →
    r.accessCount = netAccess rs r.network ∧
    r.connectionCount = r.uniqueIPs.length ∧
    r.uniqueIPs.Nodup ∧
    ∀ x, x ∈ r.uniqueIPs ↔ x ∈ netIPs rs r.network

theorem runInv_nil (cap : Nat) : RunInv cap [] initTable :=
  ⟨inv_init cap,
   fun p hp => absurd hp (List.not_mem_nil p),
   fun _ _ h => Option.noConfusion h,
   fun _ _ h => Option.noConfusion h⟩

theorem runInv_step {cap : Nat} {rs : List (String × String)}
    {t : HashTable} {k ip : String} {t2 : HashTable}
    (hRI : RunInv cap rs t) (hsucc : insertOrUpdate cap t k ip = some t2) :
    RunInv cap (rs ++ [(k, ip)]) t2 := by
  obtain ⟨hc, hInv2, j, hjcap, hunch, hcase⟩ :=
    insertOrUpdate_step hRI.inv hsucc
  rcases hcase with ⟨hempty, hfresh, hnew⟩ | ⟨r, hr, hrk, hupd⟩
  · -- create case: k was absent from the table and from the history
    have hhist : rs.filter (fun p => p.1 = k) = [] := by
      rw [List.filter_eq_nil_iff]
      intro p hp hpk
      simp only [decide_eq_true_eq] at hpk
      obtain ⟨j2, r2, hslot2, hnet2⟩ := hRI.complete p hp
      exact hfresh j2 r2 hslot2 (by rw [hnet2, hpk])
    have hacc0 : netAccess rs k = 0 := by
      unfold netAccess
      rw [hhist]
      rfl
    have hips0 : netIPs rs k = [] := by
      unfold netIPs
      rw [hhist]
      rfl
    refine ⟨hInv2, ?_, ?_, ?_⟩
    · intro p hp
      rcases List.mem_append.mp hp with hold | hsing
      · obtain ⟨j2, r2, hslot2, hnet2⟩ := hRI.complete p hold
        have hne : j2 ≠ j := by
          intro habs
          rw [habs, hempty] at hslot2
          exact Option.noConfusion hslot2
        exact ⟨j2, r2, by rw [hunch j2 hne]; exact hslot2, hnet2⟩
      · have hpk : p = (k, ip) := by simpa using hsing
        subst hpk
        exact ⟨j, newNetworkInfo k ip, hnew, rfl⟩
    · intro j2 r2 h2
      by_cases hne : j2 = j
      · subst hne
        rw [hnew] at h2
        cases h2
        exact ⟨(k, ip), by simp, rfl⟩
      · rw [hunch j2 hne] at h2
        obtain ⟨p, hp, hpk⟩ := hRI.sound j2 r2 h2
        exact ⟨p, List.mem_append.mpr (Or.inl hp), hpk⟩
    · intro j2 r2 h2
      by_cases hne : j2 = j
      · subst hne
        rw [hnew] at h2
        cases h2
        simp only [show (newNetworkInfo k ip).network = k from rfl,
          show (newNetworkInfo k ip).accessCount = 1 from rfl,
          show (newNetworkInfo k ip).connectionCount = 1 from rfl,
          show (newNetworkInfo k ip).uniqueIPs = [ip] from rfl]
        rw [netAccess_append, netIPs_append, hacc0, hips0]
        refine ⟨by simp, rfl, List.nodup_singleton ip, ?_⟩
        intro x
        simp
      · rw [hunch j2 hne] at h2
        have hkne : r2.network ≠ k := hfresh j2 r2 h2
        obtain ⟨ha, hb, hcn, hd⟩ := hRI.agg j2 r2 h2
        rw [netAccess_append, netIPs_append]
        rw [if_neg (by intro habs; exact hkne habs.symm),
          if_neg (by intro habs; exact hkne habs.symm)]
        exact ⟨by rw [ha]; omega, hb, hcn, by
          intro x
          rw [hd x, List.append_nil]⟩
  · -- update case: slot j held k, its record is updated in place
    have hnet2 : (updateNetworkInfo r ip).network = r.network :=
      updateNetworkInfo_network r ip
    refine ⟨hInv2, ?_, ?_, ?_⟩
    · intro p hp
      rcases List.mem_append.mp hp with hold | hsing
      · obtain ⟨j2, r2, hslot2, hnet3⟩ := hRI.complete p hold
        by_cases hne : j2 = j
        · subst hne
          refine ⟨j2, updateNetworkInfo r ip, hupd, ?_⟩
          rw [hnet2]
          rw [hslot2] at hr
          cases hr
          exact hnet3
        · exact ⟨j2, r2, by rw [hunch j2 hne]; exact hslot2, hnet3⟩
      · have hpk : p = (k, ip) := by simpa using hsing
        subst hpk
        exact ⟨j, updateNetworkInfo r ip, hupd, by rw [hnet2, hrk]⟩
    · intro j2 r2 h2
      by_cases hne : j2 = j
      · subst hne
        rw [hupd] at h2
        cases h2
        exact ⟨(k, ip), by simp, by rw [hnet2, hrk]⟩
      · rw [hunch j2 hne] at h2
        obtain ⟨p, hp, hpk⟩ := hRI.sound j2 r2 h2
        exact ⟨p, List.mem_append.mpr (Or.inl hp), hpk⟩
    · intro j2 r2 h2
      by_cases hne : j2 = j
      · subst hne
        rw [hupd] at h2
        cases h2
        obtain ⟨ha, hb, hcn, hd⟩ := hRI.agg j2 r hr
        rw [hnet2, hrk] at *
        rw [hrk] at ha hd
        unfold updateNetworkInfo
        by_cases hex : ipExists r.uniqueIPs ip
        · rw [if_pos hex]
          refine ⟨?_, hb, hcn, ?_⟩
          · simp only
            rw [netAccess_append, ha]
            simp
          · intro x
            simp only
            rw [netIPs_append, if_pos rfl, hd x, List.mem_append,
              List.mem_singleton]
            constructor
            · exact fun hx => Or.inl hx
            · rintro (hx | rfl)
              · exact hx
              · exact (hd _).mp ((ipExists_iff r.uniqueIPs _).mp hex)
        · rw [if_neg hex]
          have hnotmem : ip ∉ r.uniqueIPs := by
            intro habs
            exact hex ((ipExists_iff _ _).mpr habs)
          refine ⟨?_, ?_, ?_, ?_⟩
          · simp only
            rw [netAccess_append, ha]
            simp
          · simp only [addIP, List.length_cons]
            rw [hb]
          · simp only [addIP]
            exact List.Nodup.cons hnotmem hcn
          · intro x
            simp only [addIP, List.mem_cons]
            rw [netIPs_append, if_pos rfl, hd x, List.mem_append,
              List.mem_singleton]
            tauto
      · rw [hunch j2 hne] at h2
        have hkne : r2.network ≠ k := by
          intro habs
          have := hInv2.uniq j2 j r2 (updateNetworkInfo r ip)
            (by rw [hunch j2 hne]; exact h2) hupd (by rw [hnet2, hrk, habs])
          exact hne this
        obtain ⟨ha, hb, hcn, hd⟩ := hRI.agg j2 r2 h2
        rw [netAccess_append, netIPs_append]
        rw [if_neg (by intro habs; exact hkne habs.symm),
          if_neg (by intro habs; exact hkne habs.symm)]
        exact ⟨by rw [ha]; omega, hb, hcn, by
          intro x
          rw [hd x, List.append_nil]⟩

theorem runInv_ingest {cap : Nat} :
    ∀ (rs2 rs : List (String × String)) (t t2 : HashTable),
      RunInv cap rs t → ingest cap t rs2 = some t2 →
      RunInv cap (rs ++ rs2) t2 := by
  intro rs2
  induction rs2 with
  | nil =>
    intro rs t t2 hRI hing
    rw [ingest] at hing
    cases hing
    rw [List.append_nil]
    exact hRI
  | cons p rest ih =>
    intro rs t t2 hRI hing
    rw [ingest] at hing
    rcases hstep : insertOrUpdate cap t p.1 p.2 with _ | tmid
    · rw [hstep] at hing
      exact Option.noConfusion hing
    · rw [hstep] at hing
      have hmid : RunInv cap (rs ++ [p]) tmid := runInv_step hRI hstep
      have := ih (rs ++ [p]) tmid t2 hmid hing
      rwa [List.append_assoc, List.singleton_append] at this

end Act52

/-- C1: after any sequence of ingestions into the Act5.2 table of capacity
`cap` that succeeds and involves fewer distinct network keys than `cap`,
`searchNetwork` locates, for every ingested key, the slot holding exactly
that key's own aggregate record (the returned slot's stored key is the
queried key), and returns not-found (`none`, the `-1` of the source) for
every key never ingested. -/
theorem act52_insert_find (cap : Nat) (rs : List (String × String))
    (t : Act52.HashTable)
    (hing : Act52.ingest cap Act52.initTable rs = some t)
    (hN : (rs.map Prod.fst).dedup.length < cap) :
    (∀ k, (∃ p ∈ rs, p.1 = k) →
      ∃ j r, Act52.searchNetwork cap t k = some j ∧ t.slots j = some r ∧
        r.network = k) ∧
    (∀ k, (∀ p ∈ rs, p.1 ≠ k) → Act52.searchNetwork cap t k = none) := by
  have hc : 0 < cap := lt_of_le_of_lt (Nat.zero_le _) hN
  have hRI : Act52.RunInv cap rs t := by
    have := Act52.runInv_ingest rs [] Act52.initTable t
      (Act52.runInv_nil cap) hing
    rwa [List.nil_append] at this
  constructor
  · rintro k ⟨p, hp, hpk⟩
    obtain ⟨j, r, hslot, hnet⟩ := hRI.complete p hp
    rw [hpk] at hnet
    refine ⟨j, r, ?_, hslot, hnet⟩
    have := Act52.searchNetwork_finds hc hRI.inv hslot
    rwa [hnet] at this
  · intro k habs
    have habsent : ∀ j r, t.slots j = some r → r.network ≠ k := by
      intro j r hslot hnetk
      obtain ⟨p, hp, hpk⟩ := hRI.sound j r hslot
      exact habs p hp (by rw [hpk, hnetk])
    have hempty : ∃ j, j < cap ∧ t.slots j = none := by
      by_contra hcon
      push_neg at hcon
      have hmapsto : ∀ j ∈ Finset.range cap,
          ((t.slots j).map Act52.NetworkInfo.network).getD "" ∈
            (rs.map Prod.fst).toFinset := by
        intro j hj
        rw [Finset.mem_range] at hj
        rcases hs : t.slots j with _ | r
        · exact absurd hs (hcon j hj)
        · simp only [Option.map_some', Option.getD_some]
          rw [List.mem_toFinset, List.mem_map]
          obtain ⟨p, hp, hpk⟩ := hRI.sound j r hs
          exact ⟨p, hp, hpk⟩
      have hinj : Set.InjOn
          (fun j => ((t.slots j).map Act52.NetworkInfo.network).getD "")
          (Finset.range cap) := by
        intro j1 hj1 j2 hj2 heq
        rw [Finset.mem_coe, Finset.mem_range] at hj1 hj2
        rcases hs1 : t.slots j1 with _ | r1
        · exact absurd hs1 (hcon j1 hj1)
        rcases hs2 : t.slots j2 with _ | r2
        · exact absurd hs2 (hcon j2 hj2)
        simp only [hs1, hs2, Option.map_some', Option.getD_some] at heq
        exact hRI.inv.uniq j1 j2 r1 r2 hs1 hs2 heq
      have hcard := Finset.card_le_card_of_injOn _ hmapsto hinj
      rw [Finset.card_range, List.card_toFinset] at hcard
      omega
    obtain ⟨j, hjcap, hjnone⟩ := hempty
    obtain ⟨i, hicap, hieq⟩ := Act52.exists_probe_hit hc
      (Act52.hashFunction cap k) j hjcap
    unfold Act52.searchNetwork
    rw [show Act52.hashFunction cap k =
      Act52.hashFunction cap k % cap from
        (Nat.mod_eq_of_lt (Act52.hashFunction_lt hc k)).symm]
    exact Act52.probeSearch_none hc t k habsent cap _
      ⟨i, hicap, by rw [hieq]; exact hjnone⟩

/-- The ingestion history of the concrete C1/C2 witnesses: the key "10.0"
is ingested three times (the IP 10.0.0.5 twice), "20.1" once. -/
def rsW : List (String × String) :=
  [("10.0", "10.0.0.5"), ("10.0", "10.0.0.5"), ("10.0", "10.0.0.9"),
   ("20.1", "20.1.3.4")]

def tW : Act52.HashTable :=
  (Act52.ingest 7 Act52.initTable rsW).getD Act52.initTable

theorem act52_insert_find_witness :
    (∃ j r, Act52.searchNetwork 7 tW "10.0" = some j ∧
      tW.slots j = some r ∧ r.network = "10.0") ∧
    Act52.searchNetwork 7 tW "99.9" = none := by
  have h := act52_insert_find 7 rsW tW rfl (by decide)
  exact ⟨h.1 "10.0" ⟨("10.0", "10.0.0.5"), by decide, rfl⟩,
    h.2 "99.9" (by decide)⟩

/-- C2: in every reachable table state, each slot's `accessCount` equals the
number of ingestion events for its key and its `connectionCount`
(`uniqueChildCount`) equals the number of distinct child IPs ever ingested
for that key; moreover one further ingestion for a stored key increments
`accessCount` by one and increments `connectionCount` exactly when its IP is
new for that key (so the same IP twice gives +2 accesses but +1 unique
child). -/
theorem act52_aggregate_counts (cap : Nat) (rs : List (String × String))
    (t : Act52.HashTable)
    (hing : Act52.ingest cap Act52.initTable rs = some t) :
    (∀ j r, t.slots j = some r →
      r.accessCount = Act52.netAccess rs r.network ∧
      r.connectionCount = (Act52.netIPs rs r.network).dedup.length) ∧
    (∀ K ip t2 j r, t.slots j = some r → r.network = K →
      Act52.insertOrUpdate cap t K ip = some t2 →
      ∃ r2, t2.slots j = some r2 ∧
        r2.accessCount = r.accessCount + 1 ∧
        (Act52.ipExists r.uniqueIPs ip = true →
          r2.connectionCount = r.connectionCount ∧
          r2.uniqueIPs = r.uniqueIPs) ∧
        (Act52.ipExists r.uniqueIPs ip = false →
          r2.connectionCount = r.connectionCount + 1 ∧
          r2.uniqueIPs = Act52.addIP r.uniqueIPs ip)) := by
  have hRI : Act52.RunInv cap rs t := by
    have := Act52.runInv_ingest rs [] Act52.initTable t
      (Act52.runInv_nil cap) hing
    rwa [List.nil_append] at this
  constructor
  · intro j r hslot
    obtain ⟨ha, hb, hcn, hd⟩ := hRI.agg j r hslot
    refine ⟨ha, ?_⟩
    rw [hb]
    have h1 : r.uniqueIPs.length = r.uniqueIPs.toFinset.card :=
      (List.toFinset_card_of_nodup hcn).symm
    have h2 : r.uniqueIPs.toFinset =
        (Act52.netIPs rs r.network).toFinset := by
      ext x
      rw [List.mem_toFinset, List.mem_toFinset]
      exact hd x
    rw [h1, h2, List.card_toFinset]
  · intro K ip t2 j r hslot hnetK hsucc
    obtain ⟨hc, hInv2, j2, hj2cap, hunch, hcase⟩ :=
      Act52.insertOrUpdate_step hRI.inv hsucc
    rcases hcase with ⟨hempty, hfresh, hnew⟩ | ⟨r3, hr3, hr3k, hupd⟩
    · exact absurd hnetK (hfresh j r hslot)
    · have hjeq : j = j2 :=
        hRI.inv.uniq j j2 r r3 hslot hr3 (by rw [hnetK, hr3k])
      subst hjeq
      rw [hslot] at hr3
      cases hr3
      refine ⟨Act52.updateNetworkInfo r ip, hupd, ?_, ?_, ?_⟩
      · unfold Act52.updateNetworkInfo
        split <;> rfl
      · intro hex
        unfold Act52.updateNetworkInfo
        rw [if_pos (by rw [hex])]
        exact ⟨rfl, rfl⟩
      · intro hex
        unfold Act52.updateNetworkInfo
        rw [if_neg (by rw [hex]; exact Bool.false_ne_true)]
        exact ⟨rfl, rfl⟩

def t2W : Act52.HashTable :=
  (Act52.insertOrUpdate 7 tW "10.0" "10.0.0.5").getD Act52.initTable

def rW : Act52.NetworkInfo :=
  (tW.slots (Act52.hashFunction 7 "10.0")).getD
    { network := "", accessCount := 0, uniqueIPs := [],
      connectionCount := 0 }

theorem act52_aggregate_counts_witness :
    (rW.accessCount = Act52.netAccess rsW rW.network ∧
     rW.connectionCount = (Act52.netIPs rsW rW.network).dedup.length) ∧
    (∃ r2, t2W.slots (Act52.hashFunction 7 "10.0") = some r2 ∧
      r2.accessCount = rW.accessCount + 1 ∧
      (Act52.ipExists rW.uniqueIPs "10.0.0.5" = true →
        r2.connectionCount = rW.connectionCount ∧
        r2.uniqueIPs = rW.uniqueIPs) ∧
      (Act52.ipExists rW.uniqueIPs "10.0.0.5" = false →
        r2.connectionCount = rW.connectionCount + 1 ∧
        r2.uniqueIPs = Act52.addIP rW.uniqueIPs "10.0.0.5")) := by
  have h := act52_aggregate_counts 7 rsW tW rfl
  exact ⟨h.1 (Act52.hashFunction 7 "10.0") rW rfl,
    h.2 "10.0" "10.0.0.5" t2W (Act52.hashFunction 7 "10.0") rW rfl rfl rfl⟩


